import Mathlib

/-!
# yagr: a path-segment HTTP router

A shallow embedding of `yagr.go` and a verification of its route-matching core:
the segment tree (`node`), registration (`router.Insert`), lookup (`router.Search`),
parameter extraction (`node.getParams`) and the dispatch of `yagr.ServeHTTP`.

Conventions of the embedding

* A Go `string` is a Lean `String`; the only separator ever passed to `strings.Split`
  is `"/"`, a single character.
* A Go `map[string]T` is an association list (`GoMap T`) read by first occurrence of the
  key and written by replacing that occurrence or appending a new entry.
* A `*node` is the node value it points to.  Every node is created by `NewNode` inside
  `Insert` and stored under exactly one parent, so the pointer graph is a tree and a write
  through the traversal pointer is a rebuild of the path from the root.
* A `handlerFunc` is identified by a natural-number tag.
* A run-time panic (index out of range, nil dereference) is the `Outcome.panic` result.
-/

namespace Yagr

/-! ## Values -/

/-- Handler functions are only stored and handed back; a tag identifies each one. -/
abbrev handlerFunc := Nat

/-- A Go map with string keys, as a list of entries. -/
abbrev GoMap (β : Type) := List (String × β)

/-- The read `m[k]` with its presence flag: the first entry stored under `k`. -/
def GoMap.get {β : Type} : GoMap β → String → Option β
  | [], _ => none
  | (k1, v) :: t, k => if k1 = k then some v else GoMap.get t k

/-- The write `m[k] = v`: replaces the entry of `k`, or adds one. -/
def GoMap.set {β : Type} : GoMap β → String → β → GoMap β
  | [], k, v => [(k, v)]
  | (k1, v1) :: t, k, v => if k1 = k then (k, v) :: t else (k1, v1) :: GoMap.set t k v

/-- Result of running a Go function: a normal return or a run-time panic. -/
inductive Outcome (α : Type) where
  | ret (a : α)
  | panic (msg : String)
deriving DecidableEq, Repr

/-- Sequencing of calls that may panic. -/
def Outcome.andThen {α β : Type} (o : Outcome α) (f : α → Outcome β) : Outcome β :=
  match o with
  | .ret a => f a
  | .panic msg => .panic msg

/-- The message of the error value built in `Search`. -/
def errNotRegistered : String := "path is not registered"

/-! ## Splitting a path -/

/-- Pieces of a character list between occurrences of `sep`; always at least one piece. -/
def splitChars (sep : Char) : List Char → List (List Char)
  | [] => [[]]
  | c :: cs =>
    if c = sep then [] :: splitChars sep cs
    else
      match splitChars sep cs with
      | [] => [[c]]
      | s :: ss => (c :: s) :: ss

/-- Go `strings.Split(s, sep)` for a one-character separator. -/
def strings.Split (s : String) (sep : Char) : List String :=
  (splitChars sep s.data).map String.mk

/-- Source `splitFullpath`: drop the piece before the first slash; a single remaining
piece is replaced by the token `"/"`. -/
def splitFullpath (fullpath : String) : List String :=
  let ps := (strings.Split fullpath '/').drop 1
  if ps.length = 1 then ["/"] else ps

/-! ## The regular expression `reQueryParam`

`\{([a-zA-Z]+)\:(int|string|float|bool)\}`, used unanchored through `MatchString` and
`FindStringSubmatch` (leftmost match). -/

/-- Character class `[a-zA-Z]`. -/
def isAsciiLetter (c : Char) : Bool :=
  ('a' ≤ c && c ≤ 'z') || ('A' ≤ c && c ≤ 'Z')

/-- Whether `cs` begins with the characters `pre`. -/
def beginsWith : List Char → List Char → Bool
  | [], _ => true
  | _ :: _, [] => false
  | p :: ps, c :: cs => p = c && beginsWith ps cs

/-- The alternation `(int|string|float|bool)` followed by the closing brace, tried in
order at the head of `cs`; returns the alternative that matched. -/
def matchType (cs : List Char) : Option (List Char) :=
  ["int".data, "string".data, "float".data, "bool".data].find?
    (fun t => beginsWith (t ++ ['}']) cs)

/-- A match of the expression starting exactly at the head of `cs`: an opening brace, the
longest run of letters (non-empty), a colon, a type word, a closing brace.  Returns the
whole match and the two groups.  The letter run is followed by a colon, which is not a
letter, so only the longest run can match. -/
def reQueryParam.matchHere (cs : List Char) : Option (String × String × String) :=
  match cs with
  | [] => none
  | c :: rest =>
    if c = '{' then
      let name := rest.takeWhile isAsciiLetter
      match rest.dropWhile isAsciiLetter with
      | [] => none
      | d :: tail =>
        if name ≠ [] ∧ d = ':' then
          match matchType tail with
          | some ty =>
            some (String.mk ('{' :: name ++ ':' :: ty ++ ['}']), String.mk name, String.mk ty)
          | none => none
        else none
    else none

/-- Leftmost match anywhere in `cs`. -/
def reQueryParam.search : List Char → Option (String × String × String)
  | [] => none
  | c :: cs =>
    match reQueryParam.matchHere (c :: cs) with
    | some kv => some kv
    | none => reQueryParam.search cs

/-- Source `re.FindStringSubmatch(p)`: `kv[0]`, `kv[1]`, `kv[2]` as a triple. -/
def reQueryParam.FindStringSubmatch (p : String) : Option (String × String × String) :=
  reQueryParam.search p.data

/-- Source `re.MatchString(p)`. -/
def reQueryParam.MatchString (p : String) : Bool :=
  (reQueryParam.FindStringSubmatch p).isSome

/-! ## Nodes and the router -/

/-- Source `node`. -/
structure node where
  path : String
  params : List String
  nodes : List (String × node)
  methods : List (String × handlerFunc)

/-- Source `NewNode`. -/
def NewNode (path : String) : node :=
  { path := path, params := [], nodes := [], methods := [] }

/-- Source `router`. -/
structure router where
  root : GoMap node

/-- Source `NewRouter`, called without options. -/
def NewRouter : router :=
  { root := GoMap.set [] "/" (NewNode "/") }

/-- Source `getRoot`; `none` is the nil pointer of a missing key. -/
def router.getRoot (ro : router) : Option node :=
  GoMap.get ro.root "/"

/-! ## Insert -/

/-- The `for _, p := range ps` loop of `Insert` followed by the two writes after it, run
with the traversal pointer at `n` and the accumulated names `params`.  Returns `n` as it is
after the call, and the node the traversal pointer ends on (after the two writes).  A
literal segment missing among the children gets a `NewNode`, and the pointer moves to the
child; the later writes through the pointer land in the entry of the parent. -/
def Insert.loop (method : String) (hf : handlerFunc) :
    node → List String → List String → node × node
  | n, [], params =>
    let t : node := { n with methods := GoMap.set n.methods method hf, params := params }
    (t, t)
  | n, p :: rest, params =>
    match reQueryParam.FindStringSubmatch p with
    | some kv => Insert.loop method hf n rest (params ++ [kv.2.1])
    | none =>
      let child : node :=
        match GoMap.get n.nodes p with
        | some c => c
        | none => NewNode p
      let r := Insert.loop method hf child rest params
      ({ n with nodes := GoMap.set n.nodes p r.1 }, r.2)

/-- Body of `Insert`: the router after the call and the node on which the handler was
registered (the final value of the variable `n`).  Panics when `ps[0]` is out of range or
the root pointer is nil. -/
def router.InsertRun (ro : router) (fullpath method : String) (hf : handlerFunc) :
    Outcome (router × node) :=
  let ps := splitFullpath fullpath
  match ps[0]? with
  | none => .panic "index out of range"
  | some p0 =>
    match ro.getRoot with
    | none => .panic "nil pointer dereference"
    | some n =>
      let n1 : node :=
        if p0 = "/" then { n with methods := GoMap.set n.methods method hf } else n
      let r := Insert.loop method hf n1 ps []
      .ret ({ ro with root := GoMap.set ro.root "/" r.1 }, r.2)

/-- Source `Insert`: returns the receiver (its state after the call) and a nil error. -/
def router.Insert (ro : router) (fullpath method : String) (hf : handlerFunc) :
    Outcome (router × Option String) :=
  match router.InsertRun ro fullpath method hf with
  | .ret r => .ret (r.1, none)
  | .panic msg => .panic msg

/-- The node on which `Insert` registered the handler, when the call returns. -/
def router.InsertTerminal (ro : router) (fullpath method : String) (hf : handlerFunc) :
    Option node :=
  match router.InsertRun ro fullpath method hf with
  | .ret r => some r.2
  | .panic _ => none

/-! ## Search -/

/-- The `for i := 0; i < len(ps); i++` loop of `Search` over the segments from position
`i` on.  The flag `skip` is the extra `i++` taken after landing on a node with
parameters: the segment at the skipped position is not looked up.  Returns the pair
`(node, error)` of the source and the number of reads `n.nodes[ps[i]]` performed. -/
def Search.loop : node → Bool → List String → (Option node × Option String) × Nat
  | n, _, [] => ((some n, none), 0)
  | n, true, _ :: rest => Search.loop n false rest
  | n, false, p :: rest =>
    match GoMap.get n.nodes p with
    | none => ((none, some errNotRegistered), 1)
    | some c =>
      let r := Search.loop c (c.params.length != 0) rest
      (r.1, r.2 + 1)

/-- Source `Search` together with the number of child-map reads it performs. -/
def router.SearchTrace (ro : router) (fullpath : String) :
    Outcome ((Option node × Option String) × Nat) :=
  let ps := splitFullpath fullpath
  match ps[0]? with
  | none => .panic "index out of range"
  | some p0 =>
    if p0 = "/" then .ret ((ro.getRoot, none), 0)
    else
      match ro.getRoot with
      | none => .panic "nil pointer dereference"
      | some n => .ret (Search.loop n false ps)

/-- Source `Search`: the returned pair `(node, error)`. -/
def router.Search (ro : router) (fullpath : String) : Outcome (Option node × Option String) :=
  match router.SearchTrace ro fullpath with
  | .ret r => .ret r.1
  | .panic msg => .panic msg

/-! ## getParams and dispatch -/

/-- The `for i, v := range ps` loop of `getParams` from index `i` on: an odd index reads
`n.params[i>>1]` and writes the value under that name. -/
def getParams.loop (params : List String) :
    Nat → List String → GoMap String → Outcome (GoMap String)
  | _, [], acc => .ret acc
  | i, v :: rest, acc =>
    if i % 2 ≠ 0 then
      match params[i >>> 1]? with
      | none => .panic "index out of range"
      | some k => getParams.loop params (i + 1) rest (GoMap.set acc k v)
    else getParams.loop params (i + 1) rest acc

/-- Source `getParams`. -/
def node.getParams (n : node) (fullpath : String) : Outcome (GoMap String) :=
  getParams.loop n.params 0 (splitFullpath fullpath) []

/-- Source `yagr`. -/
structure yagr where
  router : router

/-- Source `NewYAGR`, called without options. -/
def NewYAGR : yagr :=
  { router := NewRouter }

/-- The shared body of `Get`, `Post`, `Put`, `Delete`, `Patch`: `Insert` with the fixed
method string, and a panic on a non-nil error. -/
def yagr.register (y : yagr) (method path : String) (hf : handlerFunc) : Outcome yagr :=
  match y.router.Insert path method hf with
  | .ret (ro, none) => .ret { router := ro }
  | .ret (_, some err) => .panic err
  | .panic msg => .panic msg

/-- Source `Get`. -/
def yagr.Get (y : yagr) (path : String) (hf : handlerFunc) : Outcome yagr :=
  y.register "GET" path hf

/-- Source `Post`. -/
def yagr.Post (y : yagr) (path : String) (hf : handlerFunc) : Outcome yagr :=
  y.register "POST" path hf

/-- Source `Put`. -/
def yagr.Put (y : yagr) (path : String) (hf : handlerFunc) : Outcome yagr :=
  y.register "PUT" path hf

/-- Source `Delete`. -/
def yagr.Delete (y : yagr) (path : String) (hf : handlerFunc) : Outcome yagr :=
  y.register "DELETE" path hf

/-- Source `Patch`. -/
def yagr.Patch (y : yagr) (path : String) (hf : handlerFunc) : Outcome yagr :=
  y.register "PATCH" path hf

/-- What `ServeHTTP` does with a request: a 404 status, or a call of handler `h` with the
parameter map attached to the request context. -/
inductive Response where
  | notFound
  | served (h : handlerFunc) (params : GoMap String)
deriving DecidableEq, Repr

/-- Source `ServeHTTP` on a request with the given method and URL path. -/
def yagr.ServeHTTP (y : yagr) (method path : String) : Outcome Response :=
  match y.router.Search path with
  | .panic msg => .panic msg
  | .ret (_, some _) => .ret .notFound
  | .ret (none, none) => .panic "nil pointer dereference"
  | .ret (some n, none) =>
    match GoMap.get n.methods method with
    | none => .ret .notFound
    | some h =>
      match n.getParams path with
      | .panic msg => .panic msg
      | .ret ps => .ret (.served h ps)

/-! ## Vocabulary of the statements -/

/-- A path begins with a slash. -/
def startsWithSlash (p : String) : Prop := p.data.head? = some '/'

instance (p : String) : Decidable (startsWithSlash p) := by
  unfold startsWithSlash; infer_instance

/-- The pieces of a path after its first slash, before `splitFullpath` replaces a single
piece by the token `"/"`. -/
def rawSegments (p : String) : List String := (strings.Split p '/').drop 1


/-- The names recorded by `Insert` for a segment list: group 1 of every segment the
expression matches, in order. -/
def placeholderNames (segs : List String) : List String :=
  segs.filterMap (fun s => (reQueryParam.FindStringSubmatch s).map (fun kv => kv.2.1))

/-- Whether the segment list `cs` arises from the pattern segments `segs` by replacing
each placeholder segment by some string and keeping every other segment. -/
def instanceSegs : List String → List String → Bool
  | [], [] => true
  | s :: segs, c :: cs => (reQueryParam.MatchString s || decide (c = s)) && instanceSegs segs cs
  | _, _ => false

/-- The concrete path `q` is obtained from the pattern `p` by substituting a slash-free
string for each placeholder: both begin with a slash and their segments correspond.  (A
segment of `q` never contains a slash.) -/
def IsInstanceOf (p q : String) : Prop :=
  startsWithSlash q ∧ instanceSegs (rawSegments p) (rawSegments q) = true

instance (p q : String) : Decidable (IsInstanceOf p q) := by
  unfold IsInstanceOf; infer_instance

/-- The map sending each placeholder name of the pattern segments to the string standing in
its place among the concrete segments. -/
def bindings : List String → List String → GoMap String
  | s :: segs, c :: cs =>
    match reQueryParam.FindStringSubmatch s with
    | some kv => (kv.2.1, c) :: bindings segs cs
    | none => bindings segs cs
  | _, _ => []

/-- Starting at a position of the given parity, the placeholders of the segment list are
exactly the segments at odd positions. -/
def alternates : Bool → List String → Bool
  | _, [] => true
  | odd, s :: segs => (reQueryParam.MatchString s == odd) && alternates (!odd) segs

/-- The placeholders of a pattern are exactly its segments at odd positions, counting the
first segment as position 0. -/
def placeholdersAtOddPositions (p : String) : Prop :=
  alternates false (rawSegments p) = true

instance (p : String) : Decidable (placeholdersAtOddPositions p) := by
  unfold placeholdersAtOddPositions; infer_instance

/-! ## Addresses in the tree and sequences of calls -/

/-- The node addressed from `n` by a sequence of child keys, each read as in `n.nodes[k]`. -/
def node.descend : node → List String → Option node
  | n, [] => some n
  | n, k :: ks =>
    match GoMap.get n.nodes k with
    | none => none
    | some c => node.descend c ks

/-- The child keys the loop of `Insert` follows on a segment list: the segments the
expression does not match, in order. -/
def literalKeys (segs : List String) : List String :=
  segs.filter (fun s => !reQueryParam.MatchString s)

/-- A sequence of `Insert` calls `(path, method, handler)` applied in order. -/
def insertAll : router → List (String × String × handlerFunc) → Outcome router
  | ro, [] => .ret ro
  | ro, c :: rest =>
    match ro.Insert c.1 c.2.1 c.2.2 with
    | .ret r => insertAll r.1 rest
    | .panic msg => .panic msg

/-- The node `x` occurs in the tree below `n`: it is `n` or occurs below an entry of the
children map of `n`. -/
inductive node.Reaches : node → node → Prop where
  | here (n : node) : node.Reaches n n
  | child (n : node) (k : String) (c x : node) :
      (k, c) ∈ n.nodes → node.Reaches c x → node.Reaches n x

/-- Every key of the children map of `x` is a segment the expression does not match, and
the child stored under it carries the key as its segment text. -/
def node.KeyedByLiterals (x : node) : Prop :=
  ∀ k c, (k, c) ∈ x.nodes → reQueryParam.MatchString k = false ∧ c.path = k

/-- Every handler entry of `x` was written by one of the calls `done`. -/
def node.HandlersFrom (done : List (String × String × handlerFunc)) (x : node) : Prop :=
  ∀ M h, (M, h) ∈ x.methods → ∃ p, (p, M, h) ∈ done

/-! ## Alternating patterns -/

/-- The characters of the path made of the given segments, each preceded by a slash. -/
def joinChars : List String → List Char
  | [] => []
  | s :: rest => '/' :: (s.data ++ joinChars rest)

/-- The path made of the given segments, each preceded by a slash. -/
def joinPath (segs : List String) : String := String.mk (joinChars segs)

/-- The segment text `{name:ty}`. -/
def placeholderText (name ty : String) : String :=
  String.mk ('{' :: (name.data ++ ':' :: (ty.data ++ ['}'])))

/-- The string contains no slash. -/
def slashFree (s : String) : Prop := '/' ∉ s.data

instance (s : String) : Decidable (slashFree s) := by
  unfold slashFree; infer_instance

/-- The string is a non-empty run of ASCII letters. -/
def lettersOnly (s : String) : Prop := s.data ≠ [] ∧ ∀ c ∈ s.data, isAsciiLetter c = true

instance (s : String) : Decidable (lettersOnly s) := by
  unfold lettersOnly; infer_instance

/-- The type words of the expression. -/
def recognisedTypes : List String := ["int", "string", "float", "bool"]

/-- One literal segment followed by one placeholder, with the value a request puts in the
place of the placeholder. -/
structure AltItem where
  literal : String
  name : String
  ty : String
  value : String

/-- The item is well formed: a slash-free literal the expression does not match, a name
of letters, a recognised type, a slash-free value. -/
def AltItem.wellFormed (it : AltItem) : Prop :=
  slashFree it.literal ∧ reQueryParam.MatchString it.literal = false
    ∧ lettersOnly it.name ∧ it.ty ∈ recognisedTypes ∧ slashFree it.value

instance (it : AltItem) : Decidable it.wellFormed := by
  unfold AltItem.wellFormed; infer_instance

/-- Segments of the pattern `/l1/{n1:t1}/.../lk/{nk:tk}`. -/
def patternSegs : List AltItem → List String
  | [] => []
  | it :: rest => it.literal :: placeholderText it.name it.ty :: patternSegs rest

/-- Segments of the request path `/l1/v1/.../lk/vk`. -/
def requestSegs : List AltItem → List String
  | [] => []
  | it :: rest => it.literal :: it.value :: requestSegs rest

/-! ## Routers of the tests -/

/-- The router of the search test: a fresh router on which
`/another/{param:int}/file` was registered for GET with handler 1. -/
def searchTestRouter : router :=
  { root := [("/", { path := "/", params := [], methods := [], nodes :=
      [("another", { path := "another", params := [], methods := [], nodes :=
        [("file", { path := "file", params := ["param"], nodes := [],
                    methods := [("GET", 1)] })] })] })] }

/-- The registrations of the end-to-end test, in order, with handlers 1 to 5. -/
def scenario : Outcome yagr :=
  ((((NewYAGR.Get "/" 1).andThen (fun y => y.Get "/path/{param:int}/all" 2)).andThen
    (fun y => y.Get "/path/{param:int}/all/{otherparam:int}" 3)).andThen
    (fun y => y.Get "/path/{param:int}" 4)).andThen (fun y => y.Post "/path" 5)

/-- The node `path` of `paramRouter`. -/
def paramNode : node :=
  { path := "path", params := ["param"], nodes := [], methods := [("GET", 4)] }

/-- The root of `paramRouter`. -/
def paramRoot : node :=
  { path := "/", params := [], nodes := [("path", paramNode)], methods := [] }

/-- A fresh router on which `/path/{param:int}` was registered for GET with handler 4. -/
def paramRouter : router :=
  { root := [("/", paramRoot)] }

/-! ## Facts about maps -/

theorem GoMap.get_set_same {β : Type} (m : GoMap β) (k : String) (v : β) :
    GoMap.get (GoMap.set m k v) k = some v := by
  induction m with
  | nil => simp [GoMap.set, GoMap.get]
  | cons e t ih =>
    obtain ⟨k1, v1⟩ := e
    by_cases hk : k1 = k
    · simp [GoMap.set, GoMap.get, hk]
    · simp [GoMap.set, GoMap.get, hk, ih]

theorem GoMap.get_set_other {β : Type} (m : GoMap β) (k k2 : String) (v : β) (hne : k ≠ k2) :
    GoMap.get (GoMap.set m k v) k2 = GoMap.get m k2 := by
  induction m with
  | nil => simp [GoMap.set, GoMap.get, hne]
  | cons e t ih =>
    obtain ⟨k1, v1⟩ := e
    by_cases hk : k1 = k
    · subst hk
      simp [GoMap.set, GoMap.get, hne]
    · simp only [GoMap.set, hk, if_false, GoMap.get, ih]

theorem GoMap.set_set {β : Type} (m : GoMap β) (k : String) (v w : β) :
    GoMap.set (GoMap.set m k v) k w = GoMap.set m k w := by
  induction m with
  | nil => simp [GoMap.set]
  | cons e t ih =>
    obtain ⟨k1, v1⟩ := e
    by_cases hk : k1 = k
    · simp [GoMap.set, hk]
    · simp [GoMap.set, hk, ih]

/-! ## Facts about splitting -/

theorem splitChars_ne_nil (sep : Char) (cs : List Char) : splitChars sep cs ≠ [] := by
  cases cs with
  | nil => simp [splitChars]
  | cons c cs =>
    unfold splitChars
    split
    · simp
    · split <;> simp

theorem splitChars_no_sep (sep : Char) (cs : List Char) :
    ∀ s ∈ splitChars sep cs, sep ∉ s := by
  induction cs with
  | nil => simp [splitChars]
  | cons c cs ih =>
    unfold splitChars
    split
    · intro s hs
      rcases List.mem_cons.1 hs with h | h
      · simp [h]
      · exact ih s h
    · rename_i hc
      split
      · intro s hs
        simp at hs
        subst hs
        simpa using fun h => hc h.symm
      · rename_i s0 ss heq
        intro s hs
        rcases List.mem_cons.1 hs with h | h
        · subst h
          have := ih s0 (by simp [heq])
          simp only [List.mem_cons, not_or]
          exact ⟨fun h => hc h.symm, this⟩
        · exact ih s (by simp [heq, h])

theorem splitFullpath_eq (p : String) :
    splitFullpath p = if (rawSegments p).length = 1 then ["/"] else rawSegments p := rfl

theorem rawSegments_ne_nil (p : String) (hp : startsWithSlash p) : rawSegments p ≠ [] := by
  obtain ⟨cs⟩ := p
  cases cs with
  | nil => simp [startsWithSlash] at hp
  | cons c cs =>
    simp [startsWithSlash] at hp
    subst hp
    simp [rawSegments, strings.Split, splitChars, splitChars_ne_nil]

theorem rawSegments_ne_slash (p s : String) (hs : s ∈ rawSegments p) : s ≠ "/" := by
  intro h
  subst h
  have h1 : "/" ∈ strings.Split p '/' := List.mem_of_mem_drop hs
  simp only [strings.Split, List.mem_map] at h1
  obtain ⟨cs, hcs, he⟩ := h1
  have := splitChars_no_sep '/' p.data cs hcs
  have h2 : cs = ['/'] := by
    have := congrArg String.data he
    simpa using this
  simp [h2] at this

theorem splitFullpath_ne_nil (p : String) (hp : startsWithSlash p) : splitFullpath p ≠ [] := by
  rw [splitFullpath_eq]
  split
  · simp
  · exact rawSegments_ne_nil p hp

/-! ## Unfolding `Insert` and `Search` -/

theorem splitFullpath_cases (p : String) (hp : startsWithSlash p) :
    splitFullpath p = ["/"] ∨
      (splitFullpath p = rawSegments p ∧ ∃ s t rest, rawSegments p = s :: t :: rest ∧ s ≠ "/") := by
  rw [splitFullpath_eq]
  have hne := rawSegments_ne_nil p hp
  split
  · exact Or.inl rfl
  · rename_i hlen
    right
    refine ⟨rfl, ?_⟩
    match hseg : rawSegments p with
    | [] => exact absurd hseg hne
    | [s] => simp [hseg] at hlen
    | s :: t :: rest =>
      exact ⟨s, t, rest, rfl, rawSegments_ne_slash p s (by simp [hseg])⟩

theorem InsertRun_eq (ro : router) (n : node) (p m : String) (h : handlerFunc)
    (p0 : String) (rest : List String)
    (hroot : ro.getRoot = some n) (hps : splitFullpath p = p0 :: rest) :
    ro.InsertRun p m h =
      .ret (router.mk (GoMap.set ro.root "/"
                (Insert.loop m h
                  (if p0 = "/" then { n with methods := GoMap.set n.methods m h } else n)
                  (p0 :: rest) []).1),
            (Insert.loop m h
              (if p0 = "/" then { n with methods := GoMap.set n.methods m h } else n)
              (p0 :: rest) []).2) := by
  simp [router.InsertRun, hps, hroot]

theorem SearchTrace_eq (ro : router) (n : node) (p : String)
    (p0 : String) (rest : List String)
    (hroot : ro.getRoot = some n) (hps : splitFullpath p = p0 :: rest) :
    ro.SearchTrace p =
      if p0 = "/" then .ret ((some n, none), 0) else .ret (Search.loop n false (p0 :: rest)) := by
  simp [router.SearchTrace, hps, hroot]

theorem Search_of_trace (ro : router) (p : String) (r : (Option node × Option String) × Nat)
    (ht : ro.SearchTrace p = .ret r) : ro.Search p = .ret r.1 := by
  simp [router.Search, ht]

theorem Insert_of_run (ro : router) (p m : String) (h : handlerFunc) (r : router × node)
    (hr : ro.InsertRun p m h = .ret r) : ro.Insert p m h = .ret (r.1, none) := by
  simp [router.Insert, hr]

theorem getRoot_mk_set (root : GoMap node) (n : node) :
    (router.mk (GoMap.set root "/" n)).getRoot = some n := by
  simp [router.getRoot, GoMap.get_set_same]

theorem splitFullpath_root : splitFullpath "/" = ["/"] := by decide

theorem findSubmatch_slash : reQueryParam.FindStringSubmatch "/" = none := by decide

/-- One step of the loop of `Insert` on a literal segment. -/
theorem Insert_loop_literal (m : String) (h : handlerFunc) (n : node) (p : String)
    (rest params : List String) (hp : reQueryParam.FindStringSubmatch p = none) :
    Insert.loop m h n (p :: rest) params =
      (node.mk n.path n.params (GoMap.set n.nodes p
          (Insert.loop m h ((GoMap.get n.nodes p).getD (NewNode p)) rest params).1) n.methods,
       (Insert.loop m h ((GoMap.get n.nodes p).getD (NewNode p)) rest params).2) := by
  rw [Insert.loop]
  simp only [hp]
  cases GoMap.get n.nodes p <;> rfl

/-- One step of the loop of `Insert` on a placeholder segment. -/
theorem Insert_loop_param (m : String) (h : handlerFunc) (n : node) (p : String)
    (rest params : List String) (kv : String × String × String)
    (hp : reQueryParam.FindStringSubmatch p = some kv) :
    Insert.loop m h n (p :: rest) params = Insert.loop m h n rest (params ++ [kv.2.1]) := by
  rw [Insert.loop]
  simp only [hp]

theorem InsertTerminal_of_run (ro : router) (p m : String) (h : handlerFunc) (r : router × node)
    (hr : ro.InsertRun p m h = .ret r) : ro.InsertTerminal p m h = some r.2 := by
  simp [router.InsertTerminal, hr]

/-! ## The loop of `Insert` -/

theorem Insert_loop_twice (m : String) (h1 h2 : handlerFunc) (ps : List String) :
    ∀ (n : node) (params : List String),
      Insert.loop m h2 (Insert.loop m h1 n ps params).1 ps params
        = Insert.loop m h2 n ps params := by
  induction ps with
  | nil =>
    intro n params
    simp [Insert.loop, GoMap.set_set]
  | cons p rest ih =>
    intro n params
    cases hp : reQueryParam.FindStringSubmatch p with
    | none =>
      rw [Insert_loop_literal m h1 n p rest params hp, Insert_loop_literal m h2 _ p rest params hp,
        Insert_loop_literal m h2 n p rest params hp]
      simp [GoMap.get_set_same, GoMap.set_set, ih]
    | some kv =>
      rw [Insert_loop_param m h1 n p rest params kv hp,
        Insert_loop_param m h2 _ p rest params kv hp,
        Insert_loop_param m h2 n p rest params kv hp]
      exact ih n _

theorem Insert_loop_terminal_methods (m : String) (h : handlerFunc) (ps : List String) :
    ∀ (n : node) (params : List String),
      GoMap.get (Insert.loop m h n ps params).2.methods m = some h := by
  induction ps with
  | nil =>
    intro n params
    simp [Insert.loop, GoMap.get_set_same]
  | cons p rest ih =>
    intro n params
    cases hp : reQueryParam.FindStringSubmatch p with
    | none =>
      rw [Insert_loop_literal m h n p rest params hp]
      exact ih _ _
    | some kv =>
      rw [Insert_loop_param m h n p rest params kv hp]
      exact ih _ _

theorem Insert_loop_terminal_params (m : String) (h : handlerFunc) (ps : List String) :
    ∀ (n : node) (params : List String),
      (Insert.loop m h n ps params).2.params = params ++ placeholderNames ps := by
  induction ps with
  | nil =>
    intro n params
    simp [Insert.loop, placeholderNames]
  | cons p rest ih =>
    intro n params
    cases hp : reQueryParam.FindStringSubmatch p with
    | none =>
      rw [Insert_loop_literal m h n p rest params hp, ih]
      simp [placeholderNames, hp]
    | some kv =>
      rw [Insert_loop_param m h n p rest params kv hp, ih]
      simp [placeholderNames, hp]

/-! ## The loop of `getParams` -/

theorem GoMap.set_fresh {β : Type} (m : GoMap β) (k : String) (v : β)
    (hk : k ∉ m.map Prod.fst) : GoMap.set m k v = m ++ [(k, v)] := by
  induction m with
  | nil => rfl
  | cons e t ih =>
    obtain ⟨k1, v1⟩ := e
    simp only [List.map_cons, List.mem_cons, not_or] at hk
    have h1 : k1 ≠ k := fun h => hk.1 h.symm
    simp [GoMap.set, h1, ih hk.2]

theorem foldl_set_fresh (l : GoMap String) :
    ∀ acc : GoMap String, (l.map Prod.fst).Nodup →
      (∀ k ∈ l.map Prod.fst, k ∉ acc.map Prod.fst) →
      l.foldl (fun a b => GoMap.set a b.1 b.2) acc = acc ++ l := by
  induction l with
  | nil => intro acc _ _; simp
  | cons e t ih =>
    intro acc hnd hfresh
    obtain ⟨k, v⟩ := e
    simp only [List.map_cons, List.nodup_cons] at hnd
    simp only [List.foldl_cons]
    rw [GoMap.set_fresh acc k v (hfresh k (by simp))]
    rw [ih _ hnd.2]
    · simp
    · intro k2 hk2
      simp only [List.map_append, List.map_cons, List.map_nil, List.mem_append,
        List.mem_singleton, not_or]
      refine ⟨hfresh k2 (by simp [hk2]), ?_⟩
      rintro rfl
      exact hnd.1 hk2

theorem instanceSegs_length : ∀ (segs cs : List String),
    instanceSegs segs cs = true → segs.length = cs.length := by
  intro segs
  induction segs with
  | nil =>
    intro cs h
    cases cs with
    | nil => rfl
    | cons c cs => simp [instanceSegs] at h
  | cons s segs ih =>
    intro cs h
    cases cs with
    | nil => simp [instanceSegs] at h
    | cons c cs =>
      simp only [instanceSegs, Bool.and_eq_true] at h
      simp [ih cs h.2]

theorem bindings_keys : ∀ (segs cs : List String), segs.length = cs.length →
    (bindings segs cs).map Prod.fst = placeholderNames segs := by
  intro segs
  induction segs with
  | nil => intro cs _; cases cs <;> simp [bindings, placeholderNames]
  | cons s segs ih =>
    intro cs h
    cases cs with
    | nil => simp at h
    | cons c cs =>
      have h2 : segs.length = cs.length := by simpa using h
      have := ih cs h2
      cases hp : reQueryParam.FindStringSubmatch s with
      | none => simpa [bindings, placeholderNames, hp] using this
      | some kv => simpa [bindings, placeholderNames, hp] using this

theorem getElem_append_length (pre rest : List String) (x : String) :
    (pre ++ x :: rest)[pre.length]? = some x := by
  rw [List.getElem?_append_right (le_refl _)]
  simp

/-- The loop of `getParams` on a pattern whose placeholders sit exactly at the odd
positions: every read of `params` is in range and the writes are those of `bindings`. -/
theorem getParams_loop_alternating : ∀ (segs cs : List String), segs.length = cs.length →
    ∀ (pre : List String) (i : Nat) (acc : GoMap String) (b : Bool),
      (b = true ↔ i % 2 ≠ 0) → alternates b segs = true → pre.length = i / 2 →
      getParams.loop (pre ++ placeholderNames segs) i cs acc
        = .ret ((bindings segs cs).foldl (fun a b => GoMap.set a b.1 b.2) acc) := by
  intro segs
  induction segs with
  | nil =>
    intro cs h pre i acc b _ _ _
    cases cs with
    | nil => simp [getParams.loop, bindings]
    | cons c cs => simp at h
  | cons s segs ih =>
    intro cs h pre i acc b hb halt hpre
    cases cs with
    | nil => simp at h
    | cons c cs =>
      have h2 : segs.length = cs.length := by simpa using h
      simp only [alternates, Bool.and_eq_true, beq_iff_eq] at halt
      obtain ⟨hs, hrest⟩ := halt
      cases b with
      | true =>
        have hi : i % 2 ≠ 0 := hb.1 rfl
        obtain ⟨kv, hkv⟩ := Option.isSome_iff_exists.1 hs
        have hnames : placeholderNames (s :: segs) = kv.2.1 :: placeholderNames segs := by
          simp [placeholderNames, hkv]
        have hidx : (pre ++ placeholderNames (s :: segs))[i >>> 1]? = some kv.2.1 := by
          rw [hnames, Nat.shiftRight_one, ← hpre]
          exact getElem_append_length _ _ _
        rw [getParams.loop, if_pos hi]
        simp only [hidx]
        have hpre2 : (pre ++ [kv.2.1]).length = (i + 1) / 2 := by
          simp only [List.length_append, List.length_singleton, hpre]
          omega
        have := ih cs h2 (pre ++ [kv.2.1]) (i + 1) (GoMap.set acc kv.2.1 c) false
          (by simp; omega) hrest hpre2
        rw [hnames]
        simp only [List.append_assoc, List.singleton_append] at this
        rw [this]
        simp [bindings, hkv]
      | false =>
        have hi : ¬ (i % 2 ≠ 0) := fun hne => Bool.false_ne_true (hb.2 hne)
        have hkv : reQueryParam.FindStringSubmatch s = none := by
          cases hh : reQueryParam.FindStringSubmatch s with
          | none => rfl
          | some kv => simp [reQueryParam.MatchString, hh] at hs
        have hnames : placeholderNames (s :: segs) = placeholderNames segs := by
          simp [placeholderNames, hkv]
        rw [getParams.loop, if_neg hi]
        have hpre2 : pre.length = (i + 1) / 2 := by
          rw [hpre]
          omega
        have := ih cs h2 pre (i + 1) acc true (by simp; omega) hrest hpre2
        rw [hnames, this]
        simp [bindings, hkv]

/-! ## Membership in maps and in the tree -/

theorem GoMap.mem_of_get {β : Type} (m : GoMap β) (k : String) (v : β)
    (h : GoMap.get m k = some v) : (k, v) ∈ m := by
  induction m with
  | nil => simp [GoMap.get] at h
  | cons e t ih =>
    obtain ⟨k1, v1⟩ := e
    by_cases hk : k1 = k
    · simp only [GoMap.get, hk, ↓reduceIte, Option.some.injEq] at h
      simp [hk, h]
    · simp only [GoMap.get, hk, ↓reduceIte] at h
      exact List.mem_cons_of_mem _ (ih h)

theorem GoMap.mem_set {β : Type} (m : GoMap β) (k : String) (v : β) (e : String × β)
    (h : e ∈ GoMap.set m k v) : e ∈ m ∨ e = (k, v) := by
  induction m with
  | nil =>
    simp only [GoMap.set, List.mem_singleton] at h
    exact Or.inr h
  | cons e1 t ih =>
    obtain ⟨k1, v1⟩ := e1
    by_cases hk : k1 = k
    · simp only [GoMap.set, hk, ↓reduceIte, List.mem_cons] at h
      rcases h with h | h
      · exact Or.inr h
      · exact Or.inl (List.mem_cons_of_mem _ h)
    · simp only [GoMap.set, hk, ↓reduceIte, List.mem_cons] at h
      rcases h with h | h
      · exact Or.inl (by simp [h])
      · rcases ih h with h2 | h2
        · exact Or.inl (List.mem_cons_of_mem _ h2)
        · exact Or.inr h2

theorem Reaches_cases (n x : node) (h : node.Reaches n x) :
    x = n ∨ ∃ k c, (k, c) ∈ n.nodes ∧ node.Reaches c x := by
  cases h with
  | here => exact Or.inl rfl
  | child _ k c _ hm hr => exact Or.inr ⟨k, c, hm, hr⟩

theorem Reaches_NewNode (p : String) (x : node) (h : node.Reaches (NewNode p) x) :
    x = NewNode p := by
  rcases Reaches_cases _ _ h with h | ⟨k, c, hm, -⟩
  · exact h
  · simp [NewNode] at hm

/-! ## The loop of `Insert` along the tree -/

theorem literalKeys_cons_literal (p : String) (rest : List String)
    (hp : reQueryParam.FindStringSubmatch p = none) :
    literalKeys (p :: rest) = p :: literalKeys rest := by
  simp [literalKeys, reQueryParam.MatchString, hp]

theorem literalKeys_cons_param (p : String) (rest : List String)
    (kv : String × String × String) (hp : reQueryParam.FindStringSubmatch p = some kv) :
    literalKeys (p :: rest) = literalKeys rest := by
  simp [literalKeys, reQueryParam.MatchString, hp]

theorem literalKeys_append (a b : List String) :
    literalKeys (a ++ b) = literalKeys a ++ literalKeys b := by
  simp [literalKeys]

theorem placeholderNames_append (a b : List String) :
    placeholderNames (a ++ b) = placeholderNames a ++ placeholderNames b := by
  simp [placeholderNames]

theorem placeholderNames_cons_literal (p : String) (rest : List String)
    (hp : reQueryParam.FindStringSubmatch p = none) :
    placeholderNames (p :: rest) = placeholderNames rest := by
  simp [placeholderNames, hp]

/-- The loop of `Insert` leaves the segment text of the node it starts from. -/
theorem Insert_loop_path (m : String) (h : handlerFunc) (ps : List String) :
    ∀ (n : node) (params : List String), (Insert.loop m h n ps params).1.path = n.path := by
  induction ps with
  | nil => intro n params; simp [Insert.loop]
  | cons p rest ih =>
    intro n params
    cases hp : reQueryParam.FindStringSubmatch p with
    | none => rw [Insert_loop_literal m h n p rest params hp]
    | some kv =>
      rw [Insert_loop_param m h n p rest params kv hp]
      exact ih n _

/-- The node on which the loop of `Insert` ends is the node of the new tree addressed by
the literal segments. -/
theorem Insert_loop_descend (m : String) (h : handlerFunc) (ps : List String) :
    ∀ (n : node) (params : List String),
      node.descend (Insert.loop m h n ps params).1 (literalKeys ps)
        = some (Insert.loop m h n ps params).2 := by
  induction ps with
  | nil => intro n params; simp [Insert.loop, literalKeys, node.descend]
  | cons p rest ih =>
    intro n params
    cases hp : reQueryParam.FindStringSubmatch p with
    | none =>
      rw [Insert_loop_literal m h n p rest params hp, literalKeys_cons_literal p rest hp]
      simp only [node.descend, GoMap.get_set_same]
      exact ih _ _
    | some kv =>
      rw [Insert_loop_param m h n p rest params kv hp, literalKeys_cons_param p rest kv hp]
      exact ih n _

/-- After a prefix `pre` of the segments the loop of `Insert` stands on some node `n0`
with the names of `pre` accumulated; the node of the new tree addressed by the literal
segments of `pre` is `n0` after the remaining loop. -/
theorem Insert_loop_after_segments (m : String) (h : handlerFunc) (rest : List String)
    (pre : List String) :
    ∀ (n : node) (params : List String), ∃ n0 : node,
      node.descend (Insert.loop m h n (pre ++ rest) params).1 (literalKeys pre)
        = some (Insert.loop m h n0 rest (params ++ placeholderNames pre)).1
      ∧ (Insert.loop m h n (pre ++ rest) params).2
        = (Insert.loop m h n0 rest (params ++ placeholderNames pre)).2 := by
  induction pre with
  | nil =>
    intro n params
    exact ⟨n, by simp [literalKeys, node.descend, placeholderNames], by simp [placeholderNames]⟩
  | cons p pre ih =>
    intro n params
    cases hp : reQueryParam.FindStringSubmatch p with
    | none =>
      obtain ⟨n0, h1, h2⟩ := ih ((GoMap.get n.nodes p).getD (NewNode p)) params
      refine ⟨n0, ?_, ?_⟩
      · rw [List.cons_append, Insert_loop_literal m h n p _ params hp,
          literalKeys_cons_literal p pre hp, placeholderNames_cons_literal p pre hp]
        simp only [node.descend, GoMap.get_set_same]
        exact h1
      · rw [List.cons_append, Insert_loop_literal m h n p _ params hp,
          placeholderNames_cons_literal p pre hp]
        exact h2
    | some kv =>
      obtain ⟨n0, h1, h2⟩ := ih n (params ++ [kv.2.1])
      have hn : placeholderNames (p :: pre) = kv.2.1 :: placeholderNames pre := by
        simp [placeholderNames, hp]
      refine ⟨n0, ?_, ?_⟩
      · rw [List.cons_append, Insert_loop_param m h n p _ params kv hp,
          literalKeys_cons_param p pre kv hp, hn]
        simpa using h1
      · rw [List.cons_append, Insert_loop_param m h n p _ params kv hp, hn]
        simpa using h2

/-- Frame of the loop of `Insert`: a node addressable before is addressable after by the
same keys; its segment text and its handlers for other methods are kept, and unless the
keys are those of the node where the loop ends, its handlers and parameter names are
kept. -/
theorem Insert_loop_frame (m : String) (h : handlerFunc) (ps : List String) :
    ∀ (n : node) (params : List String) (keys : List String) (x : node),
      node.descend n keys = some x →
      ∃ y, node.descend (Insert.loop m h n ps params).1 keys = some y
        ∧ y.path = x.path
        ∧ (∀ m2, m2 ≠ m → GoMap.get y.methods m2 = GoMap.get x.methods m2)
        ∧ (keys ≠ literalKeys ps → y.methods = x.methods ∧ y.params = x.params) := by
  induction ps with
  | nil =>
    intro n params keys x hx
    cases keys with
    | nil =>
      simp only [node.descend, Option.some.injEq] at hx
      subst hx
      refine ⟨_, rfl, rfl, ?_, ?_⟩
      · intro m2 hm2
        simp only [Insert.loop]
        exact GoMap.get_set_other _ _ _ _ (Ne.symm hm2)
      · intro hk
        exact absurd rfl hk
    | cons k ks =>
      refine ⟨x, ?_, rfl, fun _ _ => rfl, fun _ => ⟨rfl, rfl⟩⟩
      simpa [Insert.loop, node.descend] using hx
  | cons p rest ih =>
    intro n params keys x hx
    cases hp : reQueryParam.FindStringSubmatch p with
    | some kv =>
      rw [Insert_loop_param m h n p rest params kv hp, literalKeys_cons_param p rest kv hp]
      exact ih n _ keys x hx
    | none =>
      rw [Insert_loop_literal m h n p rest params hp, literalKeys_cons_literal p rest hp]
      cases keys with
      | nil =>
        simp only [node.descend, Option.some.injEq] at hx
        subst hx
        exact ⟨_, rfl, rfl, fun _ _ => rfl, fun _ => ⟨rfl, rfl⟩⟩
      | cons k ks =>
        by_cases hk : k = p
        · subst hk
          simp only [node.descend] at hx
          cases hc : GoMap.get n.nodes k with
          | none => simp [hc] at hx
          | some c =>
            simp only [hc] at hx
            obtain ⟨y, hy, h1, h2, h3⟩ := ih c params ks x hx
            refine ⟨y, ?_, h1, h2, ?_⟩
            · simpa [node.descend, GoMap.get_set_same] using hy
            · intro hne
              exact h3 (fun he => hne (by rw [he]))
        · refine ⟨x, ?_, rfl, fun _ _ => rfl, fun _ => ⟨rfl, rfl⟩⟩
          simp only [node.descend] at hx ⊢
          rw [GoMap.get_set_other _ _ _ _ (Ne.symm hk)]
          exact hx

/-- The loop of `Insert` preserves a property of all nodes of the tree that holds of a
fresh node, survives the two writes on the last node, and survives the replacement of
the entry of a literal segment by a node with the segment text of the child the loop
moved to. -/
theorem Insert_loop_preserves (P : node → Prop) (m : String) (h : handlerFunc)
    (hnew : ∀ p, P (NewNode p))
    (hterm : ∀ (n : node) (params : List String), P n →
      P (node.mk n.path params n.nodes (GoMap.set n.methods m h)))
    (hstep : ∀ (n : node) (p : String) (c2 : node), P n →
      reQueryParam.FindStringSubmatch p = none →
      c2.path = ((GoMap.get n.nodes p).getD (NewNode p)).path →
      P (node.mk n.path n.params (GoMap.set n.nodes p c2) n.methods))
    (ps : List String) :
    ∀ (n : node) (params : List String), (∀ x, node.Reaches n x → P x) →
      ∀ x, node.Reaches (Insert.loop m h n ps params).1 x → P x := by
  induction ps with
  | nil =>
    intro n params hn x hx
    rcases Reaches_cases _ _ hx with hx | ⟨k, c, hm, hr⟩
    · subst hx
      exact hterm n params (hn n (node.Reaches.here n))
    · exact hn x (node.Reaches.child n k c x hm hr)
  | cons p rest ih =>
    intro n params hn x hx
    cases hp : reQueryParam.FindStringSubmatch p with
    | some kv =>
      rw [Insert_loop_param m h n p rest params kv hp] at hx
      exact ih n _ hn x hx
    | none =>
      rw [Insert_loop_literal m h n p rest params hp] at hx
      rcases Reaches_cases _ _ hx with hx | ⟨k, c, hm, hr⟩
      · subst hx
        exact hstep n p _ (hn n (node.Reaches.here n)) hp (Insert_loop_path m h rest _ _)
      · rcases GoMap.mem_set _ _ _ _ hm with hm | hm
        · exact hn x (node.Reaches.child n k c x hm hr)
        · simp only [Prod.mk.injEq] at hm
          obtain ⟨-, hc⟩ := hm
          subst hc
          refine ih _ params ?_ x hr
          intro y hy
          cases hg : GoMap.get n.nodes p with
          | none =>
            rw [hg] at hy
            rw [Reaches_NewNode p y hy]
            exact hnew p
          | some c0 =>
            rw [hg] at hy
            exact hn y (node.Reaches.child n p c0 y (GoMap.mem_of_get _ _ _ hg) hy)

/-- The shape of a returning call of `Insert`. -/
theorem InsertRun_ret (ro : router) (p m : String) (h : handlerFunc) (r : router × node)
    (hr : ro.InsertRun p m h = .ret r) :
    ∃ n p0 rest, ro.getRoot = some n ∧ splitFullpath p = p0 :: rest
      ∧ r = (router.mk (GoMap.set ro.root "/"
                (Insert.loop m h
                  (if p0 = "/" then node.mk n.path n.params n.nodes (GoMap.set n.methods m h)
                   else n)
                  (p0 :: rest) []).1),
            (Insert.loop m h
              (if p0 = "/" then node.mk n.path n.params n.nodes (GoMap.set n.methods m h)
               else n)
              (p0 :: rest) []).2) := by
  cases hps : splitFullpath p with
  | nil => simp [router.InsertRun, hps] at hr
  | cons p0 rest =>
    cases hroot : ro.getRoot with
    | none => simp [router.InsertRun, hps, hroot] at hr
    | some n =>
      refine ⟨n, p0, rest, rfl, rfl, ?_⟩
      rw [InsertRun_eq ro n p m h p0 rest hroot hps] at hr
      exact (Outcome.ret.inj hr).symm

theorem Insert_ret (ro : router) (p m : String) (h : handlerFunc)
    (r : router × Option String) (hr : ro.Insert p m h = .ret r) :
    ∃ t, ro.InsertRun p m h = .ret (r.1, t) := by
  unfold router.Insert at hr
  cases hrun : ro.InsertRun p m h with
  | panic msg => simp [hrun] at hr
  | ret a =>
    simp only [hrun, Outcome.ret.injEq] at hr
    exact ⟨a.2, by rw [← hr]⟩

/-- A returning call of `Insert` preserves a property of all nodes of the tree, under the
conditions of `Insert_loop_preserves`; the segment text of the root is kept. -/
theorem InsertRun_preserves (P : node → Prop) (m : String) (h : handlerFunc)
    (hnew : ∀ p, P (NewNode p))
    (hterm : ∀ (n : node) (params : List String), P n →
      P (node.mk n.path params n.nodes (GoMap.set n.methods m h)))
    (hstep : ∀ (n : node) (p : String) (c2 : node), P n →
      reQueryParam.FindStringSubmatch p = none →
      c2.path = ((GoMap.get n.nodes p).getD (NewNode p)).path →
      P (node.mk n.path n.params (GoMap.set n.nodes p c2) n.methods))
    (ro : router) (n : node) (p : String) (r : router × node)
    (hroot : ro.getRoot = some n) (hn : ∀ x, node.Reaches n x → P x)
    (hr : ro.InsertRun p m h = .ret r) :
    ∃ n1, r.1.getRoot = some n1 ∧ n1.path = n.path ∧ ∀ x, node.Reaches n1 x → P x := by
  obtain ⟨n0, p0, rest, hroot0, hps, hr2⟩ := InsertRun_ret ro p m h r hr
  rw [hroot] at hroot0
  cases hroot0
  subst hr2
  refine ⟨_, getRoot_mk_set _ _, ?_, ?_⟩
  · rw [Insert_loop_path]
    split <;> rfl
  · apply Insert_loop_preserves P m h hnew hterm hstep
    intro x hx
    split at hx
    · rcases Reaches_cases _ _ hx with hx | ⟨k, c, hm, hc⟩
      · subst hx
        exact hterm n n.params (hn n (node.Reaches.here n))
      · exact hn x (node.Reaches.child n k c x hm hc)
    · exact hn x hx

theorem InsertRun_returns (ro : router) (n : node) (p m : String) (h : handlerFunc)
    (hroot : ro.getRoot = some n) (hp : startsWithSlash p) :
    ∃ r, ro.InsertRun p m h = .ret r := by
  have hne := splitFullpath_ne_nil p hp
  match hps : splitFullpath p with
  | [] => exact absurd hps hne
  | p0 :: rest => exact ⟨_, InsertRun_eq ro n p m h p0 rest hroot hps⟩

theorem KeyedByLiterals_insert (ro : router) (n : node) (p m : String) (h : handlerFunc)
    (r : router × node) (hroot : ro.getRoot = some n)
    (hn : ∀ x, node.Reaches n x → x.KeyedByLiterals)
    (hr : ro.InsertRun p m h = .ret r) :
    ∃ n1, r.1.getRoot = some n1 ∧ n1.path = n.path
      ∧ ∀ x, node.Reaches n1 x → x.KeyedByLiterals := by
  refine InsertRun_preserves node.KeyedByLiterals m h ?_ ?_ ?_ ro n p r hroot hn hr
  · intro p k c hm
    simp [NewNode] at hm
  · intro n params hP
    exact hP
  · intro n p c2 hP hp hpath k c hm
    rcases GoMap.mem_set _ _ _ _ hm with hm | hm
    · exact hP k c hm
    · simp only [Prod.mk.injEq] at hm
      obtain ⟨hk, hc⟩ := hm
      subst hk hc
      refine ⟨by simp [reQueryParam.MatchString, hp], ?_⟩
      rw [hpath]
      cases hg : GoMap.get n.nodes k with
      | none => rfl
      | some c0 => exact (hP k c0 (GoMap.mem_of_get _ _ _ hg)).2

theorem KeyedByLiterals_insertAll (calls : List (String × String × handlerFunc)) :
    ∀ (ro : router) (n : node), ro.getRoot = some n →
      (∀ x, node.Reaches n x → x.KeyedByLiterals) →
      (∀ c ∈ calls, startsWithSlash c.1) →
      ∃ ro1 n1, insertAll ro calls = .ret ro1 ∧ ro1.getRoot = some n1 ∧ n1.path = n.path
        ∧ ∀ x, node.Reaches n1 x → x.KeyedByLiterals := by
  induction calls with
  | nil =>
    intro ro n hroot hn _
    exact ⟨ro, n, rfl, hroot, rfl, hn⟩
  | cons c rest ih =>
    intro ro n hroot hn hcalls
    obtain ⟨r, hr⟩ := InsertRun_returns ro n c.1 c.2.1 c.2.2 hroot (hcalls c (by simp))
    obtain ⟨n1, h1, h2, h3⟩ := KeyedByLiterals_insert ro n _ _ _ r hroot hn hr
    obtain ⟨ro2, n2, h4, h5, h6, h7⟩ :=
      ih r.1 n1 h1 h3 (fun c2 hc2 => hcalls c2 (List.mem_cons_of_mem _ hc2))
    refine ⟨ro2, n2, ?_, h5, h6.trans h2, h7⟩
    simp only [insertAll, Insert_of_run _ _ _ _ _ hr]
    exact h4

theorem HandlersFrom_mono (d1 d2 : List (String × String × handlerFunc)) (x : node)
    (hsub : ∀ e, e ∈ d1 → e ∈ d2) (hx : x.HandlersFrom d1) : x.HandlersFrom d2 := by
  intro M h hm
  obtain ⟨p, hp⟩ := hx M h hm
  exact ⟨p, hsub _ hp⟩

theorem HandlersFrom_insert (done : List (String × String × handlerFunc))
    (ro : router) (n : node) (p m : String) (h : handlerFunc)
    (r : router × node) (hroot : ro.getRoot = some n)
    (hn : ∀ x, node.Reaches n x → x.HandlersFrom done)
    (hr : ro.InsertRun p m h = .ret r) :
    ∃ n1, r.1.getRoot = some n1
      ∧ ∀ x, node.Reaches n1 x → x.HandlersFrom (done ++ [(p, m, h)]) := by
  have hn2 : ∀ x, node.Reaches n x → x.HandlersFrom (done ++ [(p, m, h)]) :=
    fun x hx => HandlersFrom_mono done _ x (fun e he => List.mem_append_left _ he) (hn x hx)
  have hnew : ∀ q, (NewNode q).HandlersFrom (done ++ [(p, m, h)]) := by
    intro q M k hm
    simp [NewNode] at hm
  have hterm : ∀ (x : node) (params : List String), x.HandlersFrom (done ++ [(p, m, h)]) →
      (node.mk x.path params x.nodes (GoMap.set x.methods m h)).HandlersFrom
        (done ++ [(p, m, h)]) := by
    intro x params hP M k hm
    rcases GoMap.mem_set _ _ _ _ hm with hm | hm
    · exact hP M k hm
    · simp only [Prod.mk.injEq] at hm
      exact ⟨p, by simp [hm.1, hm.2]⟩
  obtain ⟨n1, h1, -, h3⟩ := InsertRun_preserves (node.HandlersFrom (done ++ [(p, m, h)])) m h
    hnew hterm (fun x q c2 hP _ _ => hP) ro n p r hroot hn2 hr
  exact ⟨n1, h1, h3⟩

theorem HandlersFrom_insertAll (calls : List (String × String × handlerFunc)) :
    ∀ (done : List (String × String × handlerFunc)) (ro ro1 : router) (n : node),
      ro.getRoot = some n →
      (∀ x, node.Reaches n x → x.HandlersFrom done) →
      insertAll ro calls = .ret ro1 →
      ∃ n1, ro1.getRoot = some n1
        ∧ ∀ x, node.Reaches n1 x → x.HandlersFrom (done ++ calls) := by
  induction calls with
  | nil =>
    intro done ro ro1 n hroot hn hall
    simp only [insertAll, Outcome.ret.injEq] at hall
    subst hall
    exact ⟨n, hroot, by simpa using hn⟩
  | cons c rest ih =>
    intro done ro ro1 n hroot hn hall
    simp only [insertAll] at hall
    cases hI : ro.Insert c.1 c.2.1 c.2.2 with
    | panic msg => simp [hI] at hall
    | ret r =>
      simp only [hI] at hall
      obtain ⟨t, ht⟩ := Insert_ret ro _ _ _ r hI
      obtain ⟨n1, h1, h2⟩ := HandlersFrom_insert done ro n _ _ _ _ hroot hn ht
      obtain ⟨n2, h3, h4⟩ := ih (done ++ [c]) r.1 ro1 n1 h1 h2 hall
      exact ⟨n2, h3, by simpa using h4⟩

/-! ## The loop of `Search` -/

theorem Search_loop_lookups : ∀ (ps : List String) (n : node) (b : Bool),
    (Search.loop n b ps).2 ≤ ps.length := by
  intro ps
  induction ps with
  | nil => intro n b; simp [Search.loop]
  | cons p rest ih =>
    intro n b
    cases b with
    | true =>
      simp only [Search.loop, List.length_cons]
      exact Nat.le_succ_of_le (ih n false)
    | false =>
      simp only [Search.loop, List.length_cons]
      cases GoMap.get n.nodes p with
      | none => simp
      | some c => simpa using ih c _

theorem Search_loop_reaches : ∀ (ps : List String) (n : node) (b : Bool) (x : node)
    (e : Option String) (k : Nat),
    Search.loop n b ps = ((some x, e), k) → node.Reaches n x := by
  intro ps
  induction ps with
  | nil =>
    intro n b x e k h
    simp only [Search.loop, Prod.mk.injEq, Option.some.injEq] at h
    rw [← h.1.1]
    exact node.Reaches.here n
  | cons p rest ih =>
    intro n b x e k h
    cases b with
    | true =>
      simp only [Search.loop] at h
      exact ih n false x e k h
    | false =>
      simp only [Search.loop] at h
      cases hg : GoMap.get n.nodes p with
      | none => simp [hg] at h
      | some c =>
        simp only [hg, Prod.mk.injEq] at h
        exact node.Reaches.child n p c x (GoMap.mem_of_get _ _ _ hg)
          (ih c _ x e _ (Prod.ext h.1 rfl))

theorem Search_reaches (ro : router) (path : String) (x : node) (e : Option String)
    (hs : ro.Search path = .ret (some x, e)) :
    ∃ n, ro.getRoot = some n ∧ node.Reaches n x := by
  unfold router.Search at hs
  cases ht : ro.SearchTrace path with
  | panic msg => simp [ht] at hs
  | ret r =>
    simp only [ht, Outcome.ret.injEq] at hs
    unfold router.SearchTrace at ht
    simp only at ht
    split at ht
    · cases ht
    · split at ht
      · cases ht
        simp only [Prod.mk.injEq] at hs
        exact ⟨x, hs.1, node.Reaches.here x⟩
      · split at ht
        · cases ht
        · rename_i n hroot
          cases ht
          exact ⟨n, hroot, Search_loop_reaches _ n false x e _ (Prod.ext hs rfl)⟩

/-- On a node without children, the loop of `Search` over literal segments retraces the
loop of `Insert` over the same segments and returns the node on which it ended, after
one lookup per segment. -/
theorem Search_loop_after_Insert_loop (m : String) (h : handlerFunc) (ps : List String) :
    ∀ (n : node) (params : List String), n.nodes = [] →
      (∀ s ∈ ps, reQueryParam.FindStringSubmatch s = none) →
      Search.loop (Insert.loop m h n ps params).1 false ps
        = ((some (Insert.loop m h n ps params).2, none), ps.length) := by
  induction ps with
  | nil => intro n params _ _; simp [Search.loop, Insert.loop]
  | cons p rest ih =>
    intro n params hn hlit
    have hp := hlit p (by simp)
    have hrest : ∀ s ∈ rest, reQueryParam.FindStringSubmatch s = none :=
      fun s hs => hlit s (List.mem_cons_of_mem _ hs)
    rw [Insert_loop_literal m h n p rest params hp]
    have hg : GoMap.get n.nodes p = none := by rw [hn]; rfl
    simp only [Search.loop, GoMap.get_set_same, hg, Option.getD_none]
    cases rest with
    | nil => simp [Search.loop, Insert.loop]
    | cons q rest2 =>
      have hq := hrest q (by simp)
      have hpar : (Insert.loop m h (NewNode p) (q :: rest2) params).1.params = [] := by
        rw [Insert_loop_literal m h _ q rest2 params hq]
        rfl
      rw [hpar]
      have := ih (NewNode p) params rfl hrest
      simp only [List.length_nil, bne_self_eq_false]
      rw [this]
      rfl

/-! ## Paths built from segments -/

theorem splitChars_slashFree (s : List Char) (hs : '/' ∉ s) : splitChars '/' s = [s] := by
  induction s with
  | nil => rfl
  | cons c cs ih =>
    simp only [List.mem_cons, not_or] at hs
    have hc : c ≠ '/' := fun h => hs.1 h.symm
    simp [splitChars, hc, ih hs.2]

theorem splitChars_append_slash (s rest : List Char) (hs : '/' ∉ s) :
    splitChars '/' (s ++ '/' :: rest) = s :: splitChars '/' rest := by
  induction s with
  | nil => simp [splitChars]
  | cons c cs ih =>
    simp only [List.mem_cons, not_or] at hs
    have hc : c ≠ '/' := fun h => hs.1 h.symm
    simp [splitChars, hc, ih hs.2]

theorem splitChars_joinChars (s : String) (rest : List String)
    (hs : slashFree s) (hrest : ∀ r ∈ rest, slashFree r) :
    splitChars '/' (s.data ++ joinChars rest) = s.data :: rest.map String.data := by
  induction rest generalizing s with
  | nil => simpa [joinChars] using splitChars_slashFree s.data hs
  | cons r rs ih =>
    simp only [joinChars]
    rw [splitChars_append_slash _ _ hs, ih r (hrest r (by simp))
      (fun x hx => hrest x (List.mem_cons_of_mem _ hx))]
    simp

theorem rawSegments_joinPath (s : String) (rest : List String)
    (hall : ∀ r ∈ s :: rest, slashFree r) :
    rawSegments (joinPath (s :: rest)) = s :: rest := by
  have h := splitChars_joinChars s rest (hall s (by simp))
    (fun x hx => hall x (List.mem_cons_of_mem _ hx))
  simp only [rawSegments, strings.Split, joinPath, joinChars, splitChars, ↓reduceIte, h,
    List.map_cons, List.drop_succ_cons, List.drop_zero, List.map_map]
  congr 1
  have hid : (String.mk ∘ String.data) = id := funext (fun x => rfl)
  rw [hid, List.map_id]

theorem startsWithSlash_joinPath (s : String) (rest : List String) :
    startsWithSlash (joinPath (s :: rest)) := by
  simp [startsWithSlash, joinPath, joinChars]

/-! ## The expression on a placeholder text -/

theorem takeWhile_letters (n rest : List Char) (d : Char)
    (hn : ∀ c ∈ n, isAsciiLetter c = true) (hd : isAsciiLetter d = false) :
    (n ++ d :: rest).takeWhile isAsciiLetter = n
    ∧ (n ++ d :: rest).dropWhile isAsciiLetter = d :: rest := by
  induction n with
  | nil => simp [List.takeWhile, List.dropWhile, hd]
  | cons c cs ih =>
    have hc := hn c (by simp)
    have := ih (fun x hx => hn x (List.mem_cons_of_mem _ hx))
    simp [List.takeWhile, List.dropWhile, hc, this]

theorem matchType_recognised (ty : String) (hty : ty ∈ recognisedTypes) :
    matchType (ty.data ++ ['}']) = some ty.data := by
  simp only [recognisedTypes, List.mem_cons, List.mem_singleton, List.not_mem_nil,
    or_false] at hty
  rcases hty with h | h | h | h <;> subst h <;> decide

theorem FindStringSubmatch_placeholderText (name ty : String)
    (hn : lettersOnly name) (hty : ty ∈ recognisedTypes) :
    reQueryParam.FindStringSubmatch (placeholderText name ty)
      = some (placeholderText name ty, name, ty) := by
  have htw := takeWhile_letters name.data (ty.data ++ ['}']) ':' hn.2 (by decide)
  simp only [reQueryParam.FindStringSubmatch, placeholderText, reQueryParam.search,
    reQueryParam.matchHere, ↓reduceIte, htw.1, htw.2, matchType_recognised ty hty]
  simp [hn.1]

theorem letter_ne_slash (c : Char) (hc : isAsciiLetter c = true) : c ≠ '/' := by
  intro h
  subst h
  exact absurd hc (by decide)

theorem slashFree_placeholderText (name ty : String)
    (hn : lettersOnly name) (hty : ty ∈ recognisedTypes) :
    slashFree (placeholderText name ty) := by
  have h1 : '/' ∉ name.data := fun h => letter_ne_slash _ (hn.2 _ h) rfl
  have h2 : '/' ∉ ty.data := by
    simp only [recognisedTypes, List.mem_cons, List.mem_singleton, List.not_mem_nil,
      or_false] at hty
    rcases hty with h | h | h | h <;> subst h <;> decide
  simp only [slashFree, placeholderText, List.mem_cons, List.mem_append, List.mem_singleton,
    not_or]
  exact ⟨by decide, h1, by decide, h2, by decide, by simp⟩

theorem patternSegs_facts (items : List AltItem) (hwf : ∀ it ∈ items, it.wellFormed) :
    (∀ s ∈ patternSegs items, slashFree s)
    ∧ (∀ s ∈ requestSegs items, slashFree s)
    ∧ (patternSegs items).length = (requestSegs items).length
    ∧ placeholderNames (patternSegs items) = items.map (fun it => it.name)
    ∧ alternates false (patternSegs items) = true
    ∧ bindings (patternSegs items) (requestSegs items)
        = items.map (fun it => (it.name, it.value)) := by
  induction items with
  | nil => simp [patternSegs, requestSegs, placeholderNames, alternates, bindings]
  | cons it rest ih =>
    obtain ⟨h1, h2, h3, h4, h5, h6⟩ := ih (fun x hx => hwf x (List.mem_cons_of_mem _ hx))
    obtain ⟨w1, w2, w3, w4, w5⟩ := hwf it (by simp)
    have hlit : reQueryParam.FindStringSubmatch it.literal = none := by
      simpa [reQueryParam.MatchString] using w2
    have hph := FindStringSubmatch_placeholderText it.name it.ty w3 w4
    refine ⟨?_, ?_, ?_, ?_, ?_, ?_⟩
    · intro s hs
      simp only [patternSegs, List.mem_cons] at hs
      rcases hs with hs | hs | hs
      · rw [hs]; exact w1
      · rw [hs]; exact slashFree_placeholderText _ _ w3 w4
      · exact h1 s hs
    · intro s hs
      simp only [requestSegs, List.mem_cons] at hs
      rcases hs with hs | hs | hs
      · rw [hs]; exact w1
      · rw [hs]; exact w5
      · exact h2 s hs
    · simp [patternSegs, requestSegs, h3]
    · simp only [patternSegs, List.map_cons]
      rw [placeholderNames_cons_literal _ _ hlit, ← h4]
      simp [placeholderNames, hph]
    · simp [patternSegs, alternates, reQueryParam.MatchString, hlit, hph, h5]
    · simp [patternSegs, requestSegs, bindings, hlit, hph, h6]

/-! ## Patterns of at least two segments -/

theorem splitFullpath_two (p s t : String) (rest : List String)
    (hseg : rawSegments p = s :: t :: rest) :
    splitFullpath p = s :: t :: rest ∧ s ≠ "/" := by
  refine ⟨?_, rawSegments_ne_slash p s (by simp [hseg])⟩
  rw [splitFullpath_eq, hseg]
  simp

/-- On a pattern of at least two segments `Insert` records on the node where the handler
is registered exactly the names of the segments the expression matches, in order. -/
theorem InsertRun_params_two_segments (ro : router) (n : node) (p m : String)
    (h : handlerFunc) (s t : String) (rest : List String)
    (hroot : ro.getRoot = some n) (hseg : rawSegments p = s :: t :: rest) :
    ∃ ro1 x, ro.InsertRun p m h = .ret (ro1, x)
      ∧ x.params = placeholderNames (rawSegments p)
      ∧ GoMap.get x.methods m = some h := by
  obtain ⟨hps, hs⟩ := splitFullpath_two p s t rest hseg
  have hrun := InsertRun_eq ro n p m h s (t :: rest) hroot hps
  simp only [hs, ↓reduceIte] at hrun
  refine ⟨_, _, hrun, ?_, Insert_loop_terminal_methods _ _ _ _ _⟩
  rw [Insert_loop_terminal_params, hseg]
  simp

theorem beginsWith_closing (a : List Char) :
    ∀ T : List Char, (∀ c ∈ T, isAsciiLetter c = true) →
      beginsWith (a ++ ['}']) (T ++ ['}']) = true → T = a := by
  induction a with
  | nil =>
    intro T hT hb
    cases T with
    | nil => rfl
    | cons c T2 =>
      simp only [List.nil_append, List.cons_append, beginsWith, Bool.and_eq_true,
        decide_eq_true_eq] at hb
      have := hT c (by simp)
      rw [← hb.1] at this
      exact absurd this (by decide)
  | cons x a2 ih =>
    intro T hT hb
    cases T with
    | nil =>
      cases a2 <;> simp [beginsWith] at hb
    | cons c T2 =>
      simp only [List.cons_append, beginsWith, Bool.and_eq_true, decide_eq_true_eq] at hb
      rw [hb.1, ih T2 (fun y hy => hT y (List.mem_cons_of_mem _ hy)) hb.2]

theorem matchType_unrecognised (ty : String) (ht : ∀ c ∈ ty.data, isAsciiLetter c = true)
    (hty : ty ∉ recognisedTypes) : matchType (ty.data ++ ['}']) = none := by
  simp only [matchType, List.find?_eq_none, List.mem_cons, List.mem_singleton,
    List.not_mem_nil, or_false]
  intro a ha hb
  have hta := beginsWith_closing a ty.data ht (by simpa using hb)
  apply hty
  have : ty = String.mk a := by
    rw [← hta]
  rw [this]
  rcases ha with h | h | h | h <;> subst h <;> decide

theorem search_no_brace (cs : List Char) (h : '{' ∉ cs) : reQueryParam.search cs = none := by
  induction cs with
  | nil => rfl
  | cons c cs ih =>
    simp only [List.mem_cons, not_or] at h
    have hc : c ≠ '{' := fun e => h.1 e.symm
    simp [reQueryParam.search, reQueryParam.matchHere, hc, ih h.2]

theorem letter_ne_brace (c : Char) (hc : isAsciiLetter c = true) : c ≠ '{' := by
  intro h
  subst h
  exact absurd hc (by decide)

/-- The expression matches nowhere in a segment `{name:ty}` whose type word is a run of
letters other than the four recognised ones. -/
theorem FindStringSubmatch_unrecognised (name ty : String)
    (hn : lettersOnly name) (ht : lettersOnly ty) (hty : ty ∉ recognisedTypes) :
    reQueryParam.FindStringSubmatch (placeholderText name ty) = none := by
  have htw := takeWhile_letters name.data (ty.data ++ ['}']) ':' hn.2 (by decide)
  have hrest : '{' ∉ name.data ++ ':' :: (ty.data ++ ['}']) := by
    simp only [List.mem_append, List.mem_cons, List.mem_singleton, List.not_mem_nil,
      not_or, or_false]
    exact ⟨fun h => letter_ne_brace _ (hn.2 _ h) rfl, by decide,
      fun h => letter_ne_brace _ (ht.2 _ h) rfl, by decide⟩
  simp only [reQueryParam.FindStringSubmatch, placeholderText, reQueryParam.search,
    reQueryParam.matchHere, ↓reduceIte, htw.1, htw.2, matchType_unrecognised ty ht.2 hty]
  simp [search_no_brace _ hrest]

/-- On a path of at least two segments, a segment `{name:ty}` with an unrecognised type
word is handled as a literal: the node reached by the literal segments before it holds
a child under the exact segment text after the call, and the names recorded on the last
node are those of the other segments. -/
theorem Insert_unrecognised_type_two_segments (ro : router) (n : node) (p m : String)
    (h : handlerFunc) (name ty : String) (pre post : List String)
    (hroot : ro.getRoot = some n)
    (hn : lettersOnly name) (ht : lettersOnly ty) (hty : ty ∉ recognisedTypes)
    (hseg : rawSegments p = pre ++ placeholderText name ty :: post)
    (htwo : pre ++ post ≠ []) :
    ∃ ro1 x n1 parent c, ro.InsertRun p m h = .ret (ro1, x)
      ∧ ro1.getRoot = some n1
      ∧ node.descend n1 (literalKeys pre) = some parent
      ∧ GoMap.get parent.nodes (placeholderText name ty) = some c
      ∧ x.params = placeholderNames pre ++ placeholderNames post := by
  have hlit := FindStringSubmatch_unrecognised name ty hn ht hty
  have hsegs : ∃ s t rest, rawSegments p = s :: t :: rest := by
    rw [hseg]
    cases pre with
    | nil =>
      cases post with
      | nil => exact absurd rfl htwo
      | cons q post2 => exact ⟨_, _, _, rfl⟩
    | cons a pre2 =>
      cases pre2 with
      | nil => exact ⟨_, _, _, rfl⟩
      | cons b pre3 => exact ⟨_, _, _, rfl⟩
  obtain ⟨s, t, rest, hst⟩ := hsegs
  obtain ⟨hps, hs⟩ := splitFullpath_two p s t rest hst
  have hrun := InsertRun_eq ro n p m h s (t :: rest) hroot hps
  simp only [hs, ↓reduceIte] at hrun
  rw [← hst, hseg] at hrun
  obtain ⟨n0, h1, h2⟩ := Insert_loop_after_segments m h
    (placeholderText name ty :: post) pre n []
  rw [Insert_loop_literal m h n0 _ post _ hlit] at h1
  refine ⟨_, _, _, _, _, hrun, getRoot_mk_set _ _, h1, GoMap.get_set_same _ _ _, ?_⟩
  rw [Insert_loop_terminal_params, placeholderNames_append,
    placeholderNames_cons_literal _ _ hlit]
  simp

/-! ## The claims -/

/-- C1, checked on the input of the repository's search test: on a fresh router,
`Insert("/another/{param:int}/file", "GET", 1)` builds `searchTestRouter`, the path
`/another/3/file` is an instance of the pattern, and `Search("/another/3/file")` returns
the error "path is not registered" and no node.  The lookup of `3` among the children of
`another` fails: only the node `file`, where the traversal ended, carries parameter names,
so nothing is skipped after `another`. -/
theorem search_placeholder_route_not_found :
    NewRouter.Insert "/another/{param:int}/file" "GET" 1 = .ret (searchTestRouter, none)
    ∧ IsInstanceOf "/another/{param:int}/file" "/another/3/file"
    ∧ searchTestRouter.Search "/another/3/file" = .ret (none, some errNotRegistered) :=
  ⟨rfl, by decide, rfl⟩

/-- C3, checked on a literal two-segment route: after `Get("/a/b", 1)` on a fresh `yagr`,
dispatching `GET /a/b` finds the node `b` and its handler, and `getParams` then reads
`params[0]` of an empty parameter list: the dispatch panics with an index out of range. -/
theorem serve_literal_route_panics :
    (NewYAGR.Get "/a/b" 1).andThen (fun y => y.ServeHTTP "GET" "/a/b")
      = .panic "index out of range" := by
  decide

/-- C4, checked on the end-to-end scenario: the four GET requests are served by the
handlers 1, 4, 3 and 3 with the parameter maps of the claim.  `/path/3/all` and
`/path/3/all/5` are served by the same handler (the third registration replaced the second
on the node `all`), and `/path` is served by the handler registered on `/`. -/
theorem scenario_dispatch :
    scenario.andThen (fun y => y.ServeHTTP "GET" "/path") = .ret (.served 1 [])
    ∧ scenario.andThen (fun y => y.ServeHTTP "GET" "/path/3")
        = .ret (.served 4 [("param", "3")])
    ∧ scenario.andThen (fun y => y.ServeHTTP "GET" "/path/3/all")
        = .ret (.served 3 [("param", "3")])
    ∧ scenario.andThen (fun y => y.ServeHTTP "GET" "/path/3/all/5")
        = .ret (.served 3 [("param", "3"), ("otherparam", "5")]) := by
  decide

/-- C5: for every router with a root and every request path with at least two segments
whose first segment is not the key of a child of the root, `Search` performs one child
lookup and returns the error "path is not registered" and no node. -/
theorem search_first_segment_unknown (ro : router) (n : node) (path s : String)
    (rest : List String)
    (hroot : ro.getRoot = some n)
    (hsegs : rawSegments path = s :: rest) (hrest : rest ≠ [])
    (hmiss : GoMap.get n.nodes s = none) :
    ro.SearchTrace path = .ret ((none, some errNotRegistered), 1)
    ∧ ro.Search path = .ret (none, some errNotRegistered) := by
  have hs : s ≠ "/" := rawSegments_ne_slash path s (by simp [hsegs])
  have hps : splitFullpath path = s :: rest := by
    rw [splitFullpath_eq, hsegs]
    cases rest with
    | nil => exact absurd rfl hrest
    | cons t r => simp
  have ht : ro.SearchTrace path = .ret ((none, some errNotRegistered), 1) := by
    rw [SearchTrace_eq ro n path s rest hroot hps]
    simp [hs, Search.loop, hmiss]
  refine ⟨ht, ?_⟩
  simp [router.Search, ht]

theorem search_first_segment_unknown_witness :
    searchTestRouter.getRoot.isSome = true
    ∧ rawSegments "/anotheri/file" = ["anotheri", "file"]
    ∧ searchTestRouter.Search "/anotheri/file" = .ret (none, some errNotRegistered) :=
  ⟨rfl, by decide,
   (search_first_segment_unknown searchTestRouter _ "/anotheri/file" "anotheri" ["file"] rfl
      (by decide) (by decide) rfl).2⟩

/-- C6, checked on a fresh router: the root has no child keyed `s`, the path `/s`
normalises to the token list of the bare `/`, and `Search("/s")` returns the root node
with a nil error instead of the not-found error. -/
theorem search_single_segment_returns_root :
    NewRouter.getRoot = some (NewNode "/")
    ∧ GoMap.get (NewNode "/").nodes "s" = none
    ∧ splitFullpath "/s" = ["/"]
    ∧ NewRouter.Search "/s" = .ret (some (NewNode "/"), none) :=
  ⟨rfl, rfl, by decide, rfl⟩

/-- C7: for every router with a root, every path `p` beginning with a slash, every method
`m` and handlers `h1`, `h2`, `Insert(p, m, h1)` followed by `Insert(p, m, h2)` returns the
same router, and ends on the same node, as `Insert(p, m, h2)` alone; the node where the
traversal ends binds `m` to `h2`, and so does the root when `p` normalises to the token
`/`, so that `h1` is bound under `m` on neither when the handlers differ. -/
theorem insert_overwrite (ro : router) (n : node) (p m : String) (h1 h2 : handlerFunc)
    (hroot : ro.getRoot = some n) (hp : startsWithSlash p) :
    (ro.Insert p m h1).andThen (fun r => r.1.Insert p m h2) = ro.Insert p m h2
    ∧ ∃ ro1 t1 ro2 t2,
        ro.InsertRun p m h1 = .ret (ro1, t1)
        ∧ ro1.InsertRun p m h2 = .ret (ro2, t2)
        ∧ ro.InsertRun p m h2 = .ret (ro2, t2)
        ∧ GoMap.get t2.methods m = some h2
        ∧ (h1 ≠ h2 → GoMap.get t2.methods m ≠ some h1)
        ∧ (splitFullpath p = ["/"] →
            ∃ r, ro2.getRoot = some r ∧ GoMap.get r.methods m = some h2
              ∧ (h1 ≠ h2 → GoMap.get r.methods m ≠ some h1)) := by
  have key : ∃ ro1 t1 ro2 t2,
        ro.InsertRun p m h1 = .ret (ro1, t1)
        ∧ ro1.InsertRun p m h2 = .ret (ro2, t2)
        ∧ ro.InsertRun p m h2 = .ret (ro2, t2)
        ∧ GoMap.get t2.methods m = some h2
        ∧ (splitFullpath p = ["/"] →
            ∃ r, ro2.getRoot = some r ∧ GoMap.get r.methods m = some h2) := by
    rcases splitFullpath_cases p hp with hps | ⟨hps, s, t, rest, hseg, hs⟩
    · have e1 := InsertRun_eq ro n p m h1 "/" [] hroot hps
      have e2 := InsertRun_eq ro n p m h2 "/" [] hroot hps
      rw [Insert_loop_literal m _ _ "/" [] [] findSubmatch_slash] at e1 e2
      simp only [↓reduceIte] at e1 e2
      have e3 := InsertRun_eq _ _ p m h2 "/" [] (getRoot_mk_set ro.root
        (node.mk n.path n.params (GoMap.set n.nodes "/"
          (Insert.loop m h1 ((GoMap.get n.nodes "/").getD (NewNode "/")) [] []).1)
          (GoMap.set n.methods m h1))) hps
      rw [Insert_loop_literal m _ _ "/" [] [] findSubmatch_slash] at e3
      simp only [↓reduceIte, GoMap.get_set_same, GoMap.set_set, Option.getD_some] at e3
      have e4 := Insert_loop_twice m h1 h2 [] ((GoMap.get n.nodes "/").getD (NewNode "/")) []
      rw [e4] at e3
      refine ⟨_, _, _, _, e1, e3, e2, Insert_loop_terminal_methods _ _ _ _ _, ?_⟩
      intro _
      exact ⟨_, getRoot_mk_set _ _, GoMap.get_set_same _ _ _⟩
    · rw [hseg] at hps
      have e1 := InsertRun_eq ro n p m h1 s (t :: rest) hroot hps
      have e2 := InsertRun_eq ro n p m h2 s (t :: rest) hroot hps
      simp only [hs, ↓reduceIte] at e1 e2
      have e3 := InsertRun_eq _ _ p m h2 s (t :: rest) (getRoot_mk_set ro.root
        (Insert.loop m h1 n (s :: t :: rest) []).1) hps
      simp only [hs, ↓reduceIte, GoMap.set_set] at e3
      rw [Insert_loop_twice] at e3
      refine ⟨_, _, _, _, e1, e3, e2, Insert_loop_terminal_methods _ _ _ _ _, ?_⟩
      intro h
      rw [hps] at h
      simp at h
  obtain ⟨ro1, t1, ro2, t2, e1, e3, e2, ht, hr⟩ := key
  refine ⟨?_, ro1, t1, ro2, t2, e1, e3, e2, ht, ?_, ?_⟩
  · rw [Insert_of_run _ _ _ _ _ e1, Insert_of_run _ _ _ _ _ e2]
    simp only [Outcome.andThen]
    exact Insert_of_run _ _ _ _ _ e3
  · intro hne hc
    rw [ht] at hc
    exact hne (Option.some.inj hc).symm
  · intro hps
    obtain ⟨r, hr1, hr2⟩ := hr hps
    refine ⟨r, hr1, hr2, ?_⟩
    intro hne hc
    rw [hr2] at hc
    exact hne (Option.some.inj hc).symm

theorem insert_overwrite_witness :
    startsWithSlash "/path/{param:int}/all"
    ∧ (NewRouter.Insert "/path/{param:int}/all" "GET" 1).andThen
        (fun r => r.1.Insert "/path/{param:int}/all" "GET" 2)
      = NewRouter.Insert "/path/{param:int}/all" "GET" 2 :=
  ⟨by decide,
   (insert_overwrite NewRouter (NewNode "/") "/path/{param:int}/all" "GET" 1 2 rfl
      (by decide)).1⟩

/-- C8, checked on a segment that contains a placeholder as a proper substring: the
expression is matched unanchored, so `x{id:int}y` is classified as a placeholder;
`Insert("/a/x{id:int}y/b", "GET", 1)` on a fresh router records the name `id` and builds the
chain `a`, `b` with no child keyed by the segment text. -/
theorem insert_embedded_placeholder :
    reQueryParam.MatchString "x{id:int}y" = true
    ∧ NewRouter.InsertTerminal "/a/x{id:int}y/b" "GET" 1
        = some { path := "b", params := ["id"], nodes := [], methods := [("GET", 1)] }
    ∧ (NewRouter.InsertRun "/a/x{id:int}y/b" "GET" 1).andThen (fun r => .ret r.1.root)
        = .ret [("/", { path := "/", params := [], methods := [], nodes :=
            [("a", { path := "a", params := [], methods := [], nodes :=
              [("b", { path := "b", params := ["id"], nodes := [],
                       methods := [("GET", 1)] })] })] })] :=
  ⟨rfl, rfl, rfl⟩

/-- C9: for every router with root `n`, `Search("/")` returns `n` with a nil error after
zero child lookups; and after `Insert("/", m, h)` the node returned by `Search("/")`, again
the root and again after zero lookups, binds `m` to `h`. -/
theorem search_root_route (ro : router) (n : node) (m : String) (h : handlerFunc)
    (hroot : ro.getRoot = some n) :
    ro.SearchTrace "/" = .ret ((some n, none), 0)
    ∧ ro.Search "/" = .ret (some n, none)
    ∧ ∃ ro1 n1, ro.Insert "/" m h = .ret (ro1, none)
        ∧ ro1.getRoot = some n1
        ∧ ro1.SearchTrace "/" = .ret ((some n1, none), 0)
        ∧ ro1.Search "/" = .ret (some n1, none)
        ∧ GoMap.get n1.methods m = some h := by
  have h0 : ∀ (r : router) (k : node), r.getRoot = some k →
      r.SearchTrace "/" = .ret ((some k, none), 0) := by
    intro r k hk
    rw [SearchTrace_eq r k "/" "/" [] hk splitFullpath_root]
    simp
  refine ⟨h0 ro n hroot, Search_of_trace _ _ _ (h0 ro n hroot), ?_⟩
  have hrun := InsertRun_eq ro n "/" m h "/" [] hroot splitFullpath_root
  rw [Insert_loop_literal m h _ "/" [] [] findSubmatch_slash] at hrun
  simp only [↓reduceIte] at hrun
  generalize (Insert.loop m h ((GoMap.get n.nodes "/").getD (NewNode "/")) [] []) = X at hrun
  have hg := getRoot_mk_set ro.root
    (node.mk n.path n.params (GoMap.set n.nodes "/" X.1) (GoMap.set n.methods m h))
  exact ⟨_, _, Insert_of_run _ _ _ _ _ hrun, hg, h0 _ _ hg, Search_of_trace _ _ _ (h0 _ _ hg),
    GoMap.get_set_same _ _ _⟩

theorem search_root_route_witness :
    NewRouter.getRoot = some (NewNode "/")
    ∧ NewRouter.Search "/" = .ret (some (NewNode "/"), none)
    ∧ ∃ ro1 n1, NewRouter.Insert "/" "GET" 7 = .ret (ro1, none)
        ∧ ro1.Search "/" = .ret (some n1, none)
        ∧ GoMap.get n1.methods "GET" = some 7 := by
  obtain ⟨-, h2, ro1, n1, h3, -, -, h5, h6⟩ :=
    search_root_route NewRouter (NewNode "/") "GET" 7 rfl
  exact ⟨rfl, h2, ro1, n1, h3, h5, h6⟩

/-- C10: for every router with a root and every path beginning with a slash, the read of
the first segment in `Insert` is in range, `Insert` returns without panic with a nil error,
and the router it returns is the receiver after the writes: it still has a root and its
`root` map is unchanged at every key other than `/`. -/
theorem insert_never_fails (ro : router) (n : node) (p m : String) (h : handlerFunc)
    (hroot : ro.getRoot = some n) (hp : startsWithSlash p) :
    (∃ p0, (splitFullpath p)[0]? = some p0)
    ∧ ∃ ro1 t, ro.InsertRun p m h = .ret (ro1, t)
        ∧ ro.Insert p m h = .ret (ro1, none)
        ∧ (∃ n1, ro1.getRoot = some n1)
        ∧ ∀ k, k ≠ "/" → GoMap.get ro1.root k = GoMap.get ro.root k := by
  have hne := splitFullpath_ne_nil p hp
  match hps : splitFullpath p with
  | [] => exact absurd hps hne
  | p0 :: rest =>
    refine ⟨⟨p0, by simp⟩, ?_⟩
    have hrun := InsertRun_eq ro n p m h p0 rest hroot hps
    refine ⟨_, _, hrun, Insert_of_run _ _ _ _ _ hrun, ⟨_, getRoot_mk_set _ _⟩, ?_⟩
    intro k hk
    exact GoMap.get_set_other _ _ _ _ (Ne.symm hk)

theorem insert_never_fails_witness :
    startsWithSlash "/path/{param:int}/all"
    ∧ ∃ ro1, NewRouter.Insert "/path/{param:int}/all" "GET" 2 = .ret (ro1, none) := by
  obtain ⟨-, ro1, t, -, h2, -⟩ :=
    insert_never_fails NewRouter (NewNode "/") "/path/{param:int}/all" "GET" 2 rfl (by decide)
  exact ⟨by decide, ro1, h2⟩

/-- C11, checked on a fresh router: `Insert("/", "GET", 1)` writes the handler on the root
and then runs its loop over the token `/`, which is not a placeholder: the root, which had
no children, gets a new child keyed `/` carrying the same handler. -/
theorem insert_root_creates_child :
    (NewNode "/").nodes = []
    ∧ (NewRouter.InsertRun "/" "GET" 1).andThen (fun r => .ret r.1.root)
      = .ret [("/", { path := "/", params := [], methods := [("GET", 1)], nodes :=
          [("/", { path := "/", params := [], nodes := [], methods := [("GET", 1)] })] })] :=
  ⟨rfl, rfl⟩

/-- C12, checked on a pattern of one segment: `/{id:int}` has one placeholder, named `id`,
yet it normalises to the token `/`; `Insert("/{id:int}", "GET", 1)` on a fresh router
registers the handler on the root and on a new child keyed `/`, and records no parameter
name on either. -/
theorem insert_single_placeholder_records_no_name :
    placeholderNames (rawSegments "/{id:int}") = ["id"]
    ∧ splitFullpath "/{id:int}" = ["/"]
    ∧ NewRouter.InsertTerminal "/{id:int}" "GET" 1
        = some { path := "/", params := [], nodes := [], methods := [("GET", 1)] }
    ∧ (NewRouter.InsertRun "/{id:int}" "GET" 1).andThen (fun r => .ret r.1.root)
      = .ret [("/", { path := "/", params := [], methods := [("GET", 1)], nodes :=
          [("/", { path := "/", params := [], nodes := [], methods := [("GET", 1)] })] })] :=
  ⟨by decide, by decide, rfl, rfl⟩

/-- C13: for every router whose root has a child `n` keyed `l` with non-empty parameter
names, `Search` on a path with the segments `l`, `v` returns `n` with a nil error after one
child lookup, whatever `v` is; and on a path with the segments `l`, `v`, `m` it returns
what the lookup of `m` among the children of `n` gives: that child, or the not-found
error. -/
theorem search_skips_after_param_node (ro : router) (r n : node) (l v : String)
    (hroot : ro.getRoot = some r)
    (hchild : GoMap.get r.nodes l = some n) (hparams : n.params ≠ []) :
    (∀ path, rawSegments path = [l, v] →
        ro.SearchTrace path = .ret ((some n, none), 1)
        ∧ ro.Search path = .ret (some n, none))
    ∧ (∀ path m, rawSegments path = [l, v, m] →
        ro.Search path =
          .ret (match GoMap.get n.nodes m with
                | some c => (some c, none)
                | none => (none, some errNotRegistered))) := by
  have hlen : (n.params.length != 0) = true := by
    cases hp : n.params with
    | nil => exact absurd hp hparams
    | cons a b => rfl
  constructor
  · intro path hseg
    have hl : l ≠ "/" := rawSegments_ne_slash path l (by simp [hseg])
    have hps : splitFullpath path = [l, v] := by rw [splitFullpath_eq, hseg]; simp
    have ht : ro.SearchTrace path = .ret ((some n, none), 1) := by
      rw [SearchTrace_eq ro r path l [v] hroot hps]
      simp [hl, Search.loop, hchild, hlen]
    exact ⟨ht, Search_of_trace _ _ _ ht⟩
  · intro path m hseg
    have hl : l ≠ "/" := rawSegments_ne_slash path l (by simp [hseg])
    have hps : splitFullpath path = [l, v, m] := by rw [splitFullpath_eq, hseg]; simp
    have ht := SearchTrace_eq ro r path l [v, m] hroot hps
    simp only [hl, ↓reduceIte] at ht
    rw [Search_of_trace _ _ _ ht]
    simp only [Search.loop, hchild, hlen]
    cases GoMap.get n.nodes m <;> rfl

theorem search_skips_after_param_node_witness :
    NewRouter.Insert "/path/{param:int}" "GET" 4 = .ret (paramRouter, none)
    ∧ rawSegments "/path/3" = ["path", "3"]
    ∧ paramRouter.Search "/path/3" = .ret (some paramNode, none) :=
  ⟨rfl, by decide,
   ((search_skips_after_param_node paramRouter paramRoot paramNode "path" "3" rfl rfl
      (by decide)).1 "/path/3" (by decide)).2⟩

/-- C15: after any sequence of `Insert` calls with paths beginning with a slash on a fresh
router, every call has returned, the segment text of the root is `/`, and for every node
of the tree every entry of its children map has a key the expression does not match and a
child whose segment text is that key. -/
theorem children_keyed_by_literals (calls : List (String × String × handlerFunc))
    (hcalls : ∀ c ∈ calls, startsWithSlash c.1) :
    ∃ ro root, insertAll NewRouter calls = .ret ro ∧ ro.getRoot = some root
      ∧ root.path = "/"
      ∧ ∀ x, node.Reaches root x → ∀ k c, (k, c) ∈ x.nodes →
          reQueryParam.MatchString k = false ∧ c.path = k := by
  obtain ⟨ro, root, h1, h2, h3, h4⟩ :=
    KeyedByLiterals_insertAll calls NewRouter (NewNode "/") rfl
      (by
        intro x hx k c hm
        rw [Reaches_NewNode _ x hx] at hm
        simp [NewNode] at hm)
      hcalls
  exact ⟨ro, root, h1, h2, h3, h4⟩

theorem children_keyed_by_literals_witness :
    ∃ ro root,
      insertAll NewRouter [("/path/{param:int}/all", "GET", 2), ("/path", "POST", 5)] = .ret ro
      ∧ ro.getRoot = some root ∧ root.path = "/"
      ∧ ∀ x, node.Reaches root x → ∀ k c, (k, c) ∈ x.nodes →
          reQueryParam.MatchString k = false ∧ c.path = k :=
  children_keyed_by_literals [("/path/{param:int}/all", "GET", 2), ("/path", "POST", 5)]
    (by decide)

/-- C16, checked on the input of the repository's insert test and on a path of one
segment: `Insert("/anothr/{param:value}/file", "GET", 1)` on a fresh router builds the chain
`anothr`, `{param:value}`, `file` with no parameter name on `file`; but the path
`/{param:value}` normalises to the token `/`, and `Insert` on it gives the root a child
keyed `/`, none keyed by the segment text. -/
theorem insert_single_unrecognised_type :
    reQueryParam.MatchString "{param:value}" = false
    ∧ (NewRouter.InsertRun "/anothr/{param:value}/file" "GET" 1).andThen
        (fun r => .ret r.1.root)
      = .ret [("/", { path := "/", params := [], methods := [], nodes :=
          [("anothr", { path := "anothr", params := [], methods := [], nodes :=
            [("{param:value}", { path := "{param:value}", params := [], methods := [], nodes :=
              [("file", { path := "file", params := [], nodes := [],
                          methods := [("GET", 1)] })] })] })] })]
    ∧ rawSegments "/{param:value}" = ["{param:value}"]
    ∧ (NewRouter.InsertRun "/{param:value}" "GET" 1).andThen (fun r => .ret r.1.root)
      = .ret [("/", { path := "/", params := [], methods := [("GET", 1)], nodes :=
          [("/", { path := "/", params := [], nodes := [], methods := [("GET", 1)] })] })] :=
  ⟨by decide, rfl, by decide, rfl⟩

/-- C17: `Search` is a total function of the router and the path; whenever it returns it
has performed at most as many child lookups as the normalised path has segments, and for
every router with a root and every path beginning with a slash it returns, after at most
as many lookups as the path has segments. -/
theorem search_lookups_bounded (ro : router) (path : String) :
    (∀ r, ro.SearchTrace path = .ret r → r.2 ≤ (splitFullpath path).length)
    ∧ (∀ n, ro.getRoot = some n → startsWithSlash path →
        ∃ r, ro.SearchTrace path = .ret r ∧ ro.Search path = .ret r.1
          ∧ r.2 ≤ (rawSegments path).length) := by
  have h1 : ∀ r, ro.SearchTrace path = .ret r → r.2 ≤ (splitFullpath path).length := by
    intro r hr
    unfold router.SearchTrace at hr
    simp only at hr
    split at hr
    · cases hr
    · split at hr
      · cases hr; simp
      · split at hr
        · cases hr
        · cases hr
          exact Search_loop_lookups _ _ _
  refine ⟨h1, ?_⟩
  intro n hroot hp
  have hne := splitFullpath_ne_nil path hp
  have hlen : (splitFullpath path).length = (rawSegments path).length := by
    rw [splitFullpath_eq]
    split
    · rename_i h; simp [h]
    · rfl
  match hps : splitFullpath path with
  | [] => exact absurd hps hne
  | p0 :: rest =>
    have ht := SearchTrace_eq ro n path p0 rest hroot hps
    by_cases h0 : p0 = "/"
    · simp only [h0, ↓reduceIte] at ht
      exact ⟨_, ht, Search_of_trace _ _ _ ht, by simp⟩
    · simp only [h0, ↓reduceIte] at ht
      refine ⟨_, ht, Search_of_trace _ _ _ ht, ?_⟩
      rw [← hlen, hps]
      exact Search_loop_lookups _ _ _

theorem search_lookups_bounded_witness :
    startsWithSlash "/another/3/file"
    ∧ ∃ r, searchTestRouter.SearchTrace "/another/3/file" = .ret r ∧ r.2 ≤ 3 := by
  obtain ⟨r, h1, -, h3⟩ := (search_lookups_bounded searchTestRouter "/another/3/file").2
    _ rfl (by decide)
  exact ⟨by decide, r, h1, h3⟩

/-- C18: for every path beginning with a slash none of whose segments the expression
matches, every method and handler, `Insert` on a fresh router returns with a nil error and
`Search` of the same path then returns, with a nil error, a node that binds the method to
the handler; when the path has one segment that node is the root. -/
theorem literal_round_trip_fresh (p m : String) (h : handlerFunc)
    (hp : startsWithSlash p)
    (hlit : ∀ s ∈ rawSegments p, reQueryParam.MatchString s = false) :
    ∃ ro1 t, NewRouter.Insert p m h = .ret (ro1, none)
      ∧ ro1.Search p = .ret (some t, none)
      ∧ GoMap.get t.methods m = some h
      ∧ ((rawSegments p).length = 1 → ro1.getRoot = some t) := by
  rcases splitFullpath_cases p hp with hps | ⟨hps, s, t, rest, hseg, hs⟩
  · have hrun := InsertRun_eq NewRouter (NewNode "/") p m h "/" [] rfl hps
    simp only [↓reduceIte] at hrun
    rw [Insert_loop_literal m h _ "/" [] [] findSubmatch_slash] at hrun
    generalize (Insert.loop m h
      ((GoMap.get (node.mk (NewNode "/").path (NewNode "/").params (NewNode "/").nodes
        (GoMap.set (NewNode "/").methods m h)).nodes "/").getD (NewNode "/")) [] []) = X at hrun
    have hg := getRoot_mk_set NewRouter.root
      (node.mk (NewNode "/").path (NewNode "/").params (GoMap.set (NewNode "/").nodes "/" X.1)
        (GoMap.set (NewNode "/").methods m h))
    have ht := SearchTrace_eq _ _ p "/" [] hg hps
    simp only [↓reduceIte] at ht
    exact ⟨_, _, Insert_of_run _ _ _ _ _ hrun, Search_of_trace _ _ _ ht,
      GoMap.get_set_same _ _ _, fun _ => hg⟩
  · rw [hseg] at hps
    have hrun := InsertRun_eq NewRouter (NewNode "/") p m h s (t :: rest) rfl hps
    simp only [hs, ↓reduceIte] at hrun
    have hg := getRoot_mk_set NewRouter.root
      (Insert.loop m h (NewNode "/") (s :: t :: rest) []).1
    have ht := SearchTrace_eq _ _ p s (t :: rest) hg hps
    simp only [hs, ↓reduceIte] at ht
    have hall : ∀ x ∈ s :: t :: rest, reQueryParam.FindStringSubmatch x = none := by
      intro x hx
      have := hlit x (by rw [hseg]; exact hx)
      simpa [reQueryParam.MatchString] using this
    rw [Search_loop_after_Insert_loop m h (s :: t :: rest) (NewNode "/") [] rfl hall] at ht
    refine ⟨_, _, Insert_of_run _ _ _ _ _ hrun, Search_of_trace _ _ _ ht,
      Insert_loop_terminal_methods _ _ _ _ _, ?_⟩
    intro hlen
    simp [hseg] at hlen

theorem literal_round_trip_fresh_witness :
    startsWithSlash "/path/to/file"
    ∧ ∃ ro1 t, NewRouter.Insert "/path/to/file" "GET" 1 = .ret (ro1, none)
      ∧ ro1.Search "/path/to/file" = .ret (some t, none)
      ∧ GoMap.get t.methods "GET" = some 1 := by
  obtain ⟨ro1, t, h1, h2, h3, -⟩ :=
    literal_round_trip_fresh "/path/to/file" "GET" 1 (by decide) (by decide)
  exact ⟨by decide, ro1, t, h1, h2, h3⟩

/-- C19: for every router with a root and every `Insert(p, m, h)` with `p` beginning with
a slash, the call returns and the traversal ends on the node addressed by the literal
segments; every node addressable by a sequence of child keys before the call is
addressable by the same sequence after it, with the same segment text and the same
handler for every method other than `m`; its handlers are unchanged unless it is the node
where the traversal ends or, when `p` normalises to the token `/`, the root; and its
parameter names are unchanged unless it is the node where the traversal ends. -/
theorem insert_frame (ro : router) (n : node) (p m : String) (h : handlerFunc)
    (hroot : ro.getRoot = some n) (hp : startsWithSlash p) :
    ∃ ro1 t n1, ro.InsertRun p m h = .ret (ro1, t) ∧ ro1.getRoot = some n1
      ∧ node.descend n1 (literalKeys (splitFullpath p)) = some t
      ∧ ∀ keys x, node.descend n keys = some x →
          ∃ y, node.descend n1 keys = some y
            ∧ y.path = x.path
            ∧ (∀ m2, m2 ≠ m → GoMap.get y.methods m2 = GoMap.get x.methods m2)
            ∧ (keys ≠ literalKeys (splitFullpath p) →
                ¬ (splitFullpath p = ["/"] ∧ keys = []) → y.methods = x.methods)
            ∧ (keys ≠ literalKeys (splitFullpath p) → y.params = x.params) := by
  rcases splitFullpath_cases p hp with hps | ⟨hps, s, t, rest, hseg, hs⟩
  · have hrun := InsertRun_eq ro n p m h "/" [] hroot hps
    simp only [↓reduceIte] at hrun
    refine ⟨_, _, _, hrun, getRoot_mk_set _ _, ?_, ?_⟩
    · rw [hps]
      exact Insert_loop_descend m h _ _ _
    · intro keys x hx
      rw [hps]
      cases keys with
      | nil =>
        simp only [node.descend, Option.some.injEq] at hx
        subst hx
        obtain ⟨y, hy, h1, h2, h3⟩ := Insert_loop_frame m h ["/"]
          (node.mk n.path n.params n.nodes (GoMap.set n.methods m h)) [] [] _ rfl
        refine ⟨y, hy, h1, ?_, ?_, ?_⟩
        · intro m2 hm2
          rw [h2 m2 hm2]
          exact GoMap.get_set_other _ _ _ _ (Ne.symm hm2)
        · intro _ hno
          exact absurd ⟨rfl, rfl⟩ hno
        · intro hk
          exact (h3 hk).2
      | cons k ks =>
        obtain ⟨y, hy, h1, h2, h3⟩ := Insert_loop_frame m h ["/"]
          (node.mk n.path n.params n.nodes (GoMap.set n.methods m h)) [] (k :: ks) x
          (by simpa [node.descend] using hx)
        exact ⟨y, hy, h1, h2, fun hk _ => (h3 hk).1, fun hk => (h3 hk).2⟩
  · rw [hseg] at hps
    have hrun := InsertRun_eq ro n p m h s (t :: rest) hroot hps
    simp only [hs, ↓reduceIte] at hrun
    refine ⟨_, _, _, hrun, getRoot_mk_set _ _, ?_, ?_⟩
    · rw [hps]
      exact Insert_loop_descend m h _ _ _
    · intro keys x hx
      rw [hps]
      obtain ⟨y, hy, h1, h2, h3⟩ := Insert_loop_frame m h (s :: t :: rest) n [] keys x hx
      exact ⟨y, hy, h1, h2, fun hk _ => (h3 hk).1, fun hk => (h3 hk).2⟩

theorem insert_frame_witness :
    paramRouter.getRoot = some paramRoot
    ∧ startsWithSlash "/path/{param:int}/m"
    ∧ node.descend paramRoot ["path"] = some paramNode
    ∧ ∃ ro1 t n1, paramRouter.InsertRun "/path/{param:int}/m" "PUT" 9 = .ret (ro1, t)
      ∧ ro1.getRoot = some n1
      ∧ node.descend n1 ["path", "m"] = some t
      ∧ (∀ keys x, node.descend paramRoot keys = some x →
          ∃ y, node.descend n1 keys = some y
            ∧ y.path = x.path
            ∧ (∀ m2, m2 ≠ "PUT" → GoMap.get y.methods m2 = GoMap.get x.methods m2)
            ∧ (keys ≠ ["path", "m"] →
                ¬ (splitFullpath "/path/{param:int}/m" = ["/"] ∧ keys = []) →
                y.methods = x.methods)
            ∧ (keys ≠ ["path", "m"] → y.params = x.params))
      ∧ ∃ y, node.descend n1 ["path"] = some y
          ∧ y.path = "path"
          ∧ GoMap.get y.methods "GET" = some 4
          ∧ y.methods = [("GET", 4)]
          ∧ y.params = ["param"] := by
  have hk : literalKeys (splitFullpath "/path/{param:int}/m") = ["path", "m"] := by decide
  obtain ⟨ro1, t, n1, h1, h2, h3, h4⟩ :=
    insert_frame paramRouter paramRoot "/path/{param:int}/m" "PUT" 9 rfl (by decide)
  rw [hk] at h3 h4
  refine ⟨rfl, by decide, rfl, ro1, t, n1, h1, h2, h3, h4, ?_⟩
  obtain ⟨y, hy, hpath, hother, hmeth, hpar⟩ := h4 ["path"] paramNode rfl
  refine ⟨y, hy, hpath, ?_, ?_, ?_⟩
  · rw [hother "GET" (by decide)]
    rfl
  · rw [hmeth (by decide) (by decide)]
    rfl
  · rw [hpar (by decide)]
    rfl

/-- C20: for every sequence of `Insert` calls that returns on a fresh router, whenever
`Search` returns a node and that node binds method `M` to handler `h`, some call of the
sequence was made with `M` and `h`; and every handler entry of every node of the tree was
written by a call with that method and handler. -/
theorem handlers_only_under_registered_method
    (calls : List (String × String × handlerFunc)) (ro : router)
    (hall : insertAll NewRouter calls = .ret ro) :
    (∀ path M x e h, ro.Search path = .ret (some x, e) →
        GoMap.get x.methods M = some h → ∃ p, (p, M, h) ∈ calls)
    ∧ ∃ root, ro.getRoot = some root
        ∧ ∀ x, node.Reaches root x → ∀ M h, (M, h) ∈ x.methods → ∃ p, (p, M, h) ∈ calls := by
  obtain ⟨root, h1, h2⟩ := HandlersFrom_insertAll calls [] NewRouter ro (NewNode "/") rfl
    (by
      intro x hx M h hm
      rw [Reaches_NewNode _ x hx] at hm
      simp [NewNode] at hm)
    hall
  simp only [List.nil_append] at h2
  refine ⟨?_, root, h1, h2⟩
  intro path M x e h hs hg
  obtain ⟨n, hn, hr⟩ := Search_reaches ro path x e hs
  rw [h1] at hn
  cases hn
  exact h2 x hr M h (GoMap.mem_of_get _ _ _ hg)

theorem handlers_only_under_registered_method_witness :
    ∃ ro, insertAll NewRouter [("/path/{param:int}", "GET", 4), ("/path", "POST", 5)] = .ret ro
      ∧ ∀ path M x e h, ro.Search path = .ret (some x, e) →
          GoMap.get x.methods M = some h →
          ∃ p, (p, M, h) ∈ [("/path/{param:int}", "GET", 4), ("/path", "POST", 5)] :=
  ⟨_, rfl,
   (handlers_only_under_registered_method
      [("/path/{param:int}", "GET", 4), ("/path", "POST", 5)] _ rfl).1⟩

end Yagr
